import Mathlib

/-!
Verification development for the `file-meta` store engine.

The Rust sources are shallowly embedded: `BTreeMap`/`BTreeSet` become
ordered association lists, filesystem paths become lists of UTF-8
components, the filesystem itself becomes a lookup function from paths to
metadata, and timestamps (the `time` module, which re-exports
`chrono::DateTime<Utc>`) are modelled as integers ordered like instants.
Fallible operations return `Except`/`Option`.
-/

namespace FileMeta

/-- Kernel-reducible decidability for the string order (the default
instance goes through a well-founded recursion that does not reduce). -/
instance (priority := 2000) (s t : String) : Decidable (s < t) :=
  decidable_of_iff (s.toList < t.toList) (String.lt_iff_toList_lt).symm


/-- Modelled from the spec: the `time` module (absent from the sources,
declared as `mod time;`) wraps `chrono::DateTime<Utc>`; an instant is
modelled as an integer with the instant ordering. -/
abbrev DateTime := Int

/-- Ordering produced by a linear order, mirroring Rust's `Ord::cmp`. -/
def linCmp {α : Type} [LinearOrder α] (a b : α) : Ordering :=
  compareOfLessAndEq a b

/-- TagValue from src/src/tags.rs: tagged union over number, bool, URL
and plain string.  A parsed `url::Url` is modelled by its normalized
string rendering. -/
inductive TagValue : Type where
  | number (n : Int)
  | bool (b : Bool)
  | url (u : String)
  | simple (s : String)
deriving DecidableEq, Repr

/-- TagsMap from src/src/tags.rs: `BTreeMap<String, Option<TagValue>>`,
modelled as an association list ordered by key. -/
abbrev TagsMap := List (String × Option TagValue)

/-- Lookup in a `BTreeMap` modelled as an association list (first match). -/
def mapGet {β : Type} (m : List (String × β)) (k : String) : Option β :=
  match m with
  | [] => none
  | (k', v) :: rest => if k' = k then some v else mapGet rest k

/-- Insert into a `BTreeMap` modelled as an ordered association list:
the entry is placed at its key position, replacing an equal key. -/
def mapInsert {β : Type} (m : List (String × β)) (k : String) (v : β) :
    List (String × β) :=
  match m with
  | [] => [(k, v)]
  | (k', v') :: rest =>
    if k < k' then (k, v) :: (k', v') :: rest
    else if k = k' then (k, v) :: rest
    else (k', v') :: mapInsert rest k v

/-- Remove from a `BTreeMap` modelled as an association list. -/
def mapRemove {β : Type} (m : List (String × β)) (k : String) :
    List (String × β) :=
  match m with
  | [] => []
  | (k', v') :: rest => if k' = k then rest else (k', v') :: mapRemove rest k

/-- Key membership, mirroring `BTreeMap::contains_key` / `get().is_some()`. -/
def mapContains {β : Type} (m : List (String × β)) (k : String) : Bool :=
  (mapGet m k).isSome

/-- `Extend::extend` on a `BTreeMap`: insert the pairs left to right. -/
def mapExtend {β : Type} (m : List (String × β)) (l : List (String × β)) :
    List (String × β) :=
  l.foldl (fun acc kv => mapInsert acc kv.1 kv.2) m

/-- FileData from src/src/db.rs: per-path metadata record. -/
structure FileData : Type where
  tags : TagsMap
  comment : Option String
  created : DateTime
  updated : Option DateTime
deriving DecidableEq, Repr

/-- `FileData::default()`, with `time::datetime_now()` passed explicitly. -/
def FileData.default (now : DateTime) : FileData :=
  { tags := [], comment := none, created := now, updated := none }

/-- Db from src/src/db.rs: the root persisted aggregate. -/
structure Db : Type where
  files : List (String × FileData)
  collections : List (String × List String)
  tags : TagsMap
  comment : Option String
  created : DateTime
  updated : Option DateTime
deriving DecidableEq, Repr

/-- `Db::default()`, with `time::datetime_now()` passed explicitly. -/
def Db.default (now : DateTime) : Db :=
  { files := [], collections := [], tags := [], comment := none,
    created := now, updated := none }

/-- Format from src/src/db.rs: the three on-disk codec formats. -/
inductive Format : Type where
  | jsonPretty
  | json
  | binary
deriving DecidableEq, Repr

/-- `Format::file_name()` from src/src/db.rs. -/
def Format.fileName : Format → String
  | .jsonPretty => "db.pretty.json"
  | .json => "db.json"
  | .binary => "db.bincode"

/-- `FORMAT_LIST` from src/src/db.rs, in its fixed priority order. -/
def FORMAT_LIST : List Format := [.jsonPretty, .json, .binary]

/-- Result of `std::fs::Metadata` probes: directory, regular file, or
another kind of filesystem object. -/
inductive Meta : Type where
  | dir
  | file
  | other
deriving DecidableEq, Repr

/-- Filesystem view used by the locator: `fs::get_metadata` modelled as a
total lookup from absolute paths (component lists) to optional metadata;
the I/O-error case of `get_metadata` is not modelled. -/
abbrev Fs := List String → Option Meta

/-- Recursion worker for `ancestors`; the fuel argument is only a
structural-recursion bound (one component is dropped per step, so
`p.length` fuel always suffices). -/
def ancestorsAux : Nat → List String → List (List String)
  | _, [] => [[]]
  | 0, p => [p]
  | n + 1, p => p :: ancestorsAux n p.dropLast

/-- `Path::ancestors()`: the path, then each parent up to and including
the filesystem root (the empty component list). -/
def ancestors (p : List String) : List (List String) :=
  ancestorsAux p.length p

/-- Inner loop of `Context::find_file`: probe the marker directory for
each format's well-known file name in `FORMAT_LIST` order and return the
first that exists and is a regular file. -/
def findFormatIn (fs : Fs) (fsmDir : List String) :
    Option (List String × Format) :=
  FORMAT_LIST.findSome? fun fmt =>
    let dbFile := fsmDir ++ [fmt.fileName]
    match fs dbFile with
    | some .file => some (dbFile, fmt)
    | _ => none

/-- `Context::find_file` from src/src/db.rs: walk the ancestors of the
starting directory; for each ancestor whose `.fsm` entry exists and is a
directory, probe for a store file; absent a hit the walk continues with
the next ancestor. -/
def find_file (fs : Fs) (refPath : List String) :
    Option (List String × Format) :=
  (ancestors refPath).findSome? fun anc =>
    let fsmDir := anc ++ [".fsm"]
    match fs fsmDir with
    | some .dir => findFormatIn fs fsmDir
    | _ => none

/-- PathError from src/src/path.rs.  `outsideRoot` stands for the source's
invalid-prefix variant (the resolved path is not under the store root),
`invalidChars` for the non-UTF-8 variant, `ioFailure` for the I/O variant. -/
inductive PathError : Type where
  | outsideRoot (p : List String)
  | invalidChars (p : List String)
  | ioFailure (p : List String)
deriving DecidableEq, Repr

/-- Display rendering of a `PathError`, as printed by `log_result`. -/
def PathError.message : PathError → String
  | .outsideRoot p => "file and db do not share a common root: " ++ String.intercalate "/" p
  | .invalidChars p => "file path contains non-UTF-8 characters: " ++ String.intercalate "/" p
  | .ioFailure p => "io error when resolving path " ++ String.intercalate "/" p

/-- A user-supplied path: absolute flag plus components (components may be
"." or ".." for relative inputs). -/
structure RPath : Type where
  abs : Bool
  comps : List String
deriving DecidableEq, Repr

/-- Lexical absolutization (`path_absolutize::Absolutize::absolutize_from`):
resolve a relative path against the working directory without touching the
filesystem; `.` is dropped and `..` pops a component (staying at the root). -/
def absolutize (cwd : List String) (rel : List String) : List String :=
  rel.foldl
    (fun acc c =>
      if c = "." then acc
      else if c = ".." then acc.dropLast
      else acc ++ [c])
    cwd

/-- `RelativePath::from_root` from src/src/path.rs: absolutize a relative
input against the cached working directory, strip the store-root prefix,
and join the remainder with `/` into the store key.  Components are
modelled as UTF-8 strings, so the source's non-UTF-8 error branch is
unreachable here; the platform separator is `/`. -/
def from_root (cwd root : List String) (given : RPath) :
    Except PathError (List String × String) :=
  let full := if given.abs then given.comps else absolutize cwd given.comps
  if root.isPrefixOf full then
    .ok (full, String.intercalate "/" (full.drop root.length))
  else
    .error (.outsideRoot full)

/-- Outcome of `rename_data`: the final in-memory files map, the messages
printed, and whether `db.save()` was reached. -/
structure RenameOut : Type where
  files : List (String × FileData)
  msgs : List String
  saved : Bool
deriving DecidableEq, Repr

/-- `rename_data` from src/src/rename.rs.  The current entry is removed
from the files map up front; when the renamed key is already occupied the
removal is not undone — the store is saved with the current entry gone.
`fsHas` models `fs::check_exists` for the `--exists` flag. -/
def rename_data (cwd root : List String) (argExists : Bool)
    (fsHas : List String → Bool) (files : List (String × FileData))
    (current renamed : RPath) : Except PathError RenameOut :=
  match from_root cwd root current with
  | .error e => .error e
  | .ok (_curFull, curEntry) =>
    match from_root cwd root renamed with
    | .error e => .error e
    | .ok (renFull, renEntry) =>
      match mapGet files curEntry with
      | none =>
        .ok { files := files,
              msgs := ["current not found in db: " ++ curEntry],
              saved := false }
      | some found =>
        let files1 := mapRemove files curEntry
        if argExists ∧ ¬ fsHas renFull then
          .ok { files := files1,
                msgs := ["the renamed path does not exist: " ++ renEntry],
                saved := false }
        else if mapContains files1 renEntry then
          .ok { files := files1,
                msgs := ["renamed already exists in db: " ++ renEntry],
                saved := true }
        else
          .ok { files := mapInsert files1 renEntry found,
                msgs := [],
                saved := true }

/-- Filesystem node for the initializer: a directory, a regular file with
its (decoded) store content, or another kind of object. -/
inductive Node : Type where
  | dir
  | file (content : Db)
  | other
deriving DecidableEq, Repr

/-- Filesystem view for the initializer. -/
abbrev FsN := List String → Option Node

/-- First pass of `init_db` over `FORMAT_LIST`: `none` when no format's
file name exists in the marker directory, `some (.ok ())` when the first
present one is a regular file, `some (.error ...)` when it is not. -/
def checkDbFiles (fs : FsN) (fsmDir : List String) :
    Option (Except String Unit) :=
  FORMAT_LIST.findSome? fun fmt =>
    match fs (fsmDir ++ [fmt.fileName]) with
    | some (.file _) => some (.ok ())
    | some _ =>
      some (.error "a file system item exists with the name of a db file")
    | none => none

/-- `init_db` from src/src/db/init.rs.  The result carries the list of
filesystem writes performed (path, node) and the messages printed; an
existing store file produces the message and no writes — and an `Ok`
return, not an error. -/
def init_db (fs : FsN) (cwd : List String) (fmt : Format) (now : DateTime) :
    Except String (List (List String × Node) × List String) :=
  let fsmDir := cwd ++ [".fsm"]
  let dbFile := fsmDir ++ [fmt.fileName]
  match fs fsmDir with
  | some node =>
    if node = Node.dir then
      match checkDbFiles fs fsmDir with
      | some (.ok ()) => .ok ([], ["a db file already exists"])
      | some (.error e) => .error e
      | none => .ok ([(dbFile, Node.file (Db.default now))], [])
    else
      .error ".fsm is not a directory"
  | none =>
    .ok ([(fsmDir, Node.dir), (dbFile, Node.file (Db.default now))], [])

/-- Tag argument as produced by the parsers in src/src/tags.rs. -/
abbrev Tag := String × Option TagValue

/-- SetArgs from src/src/set.rs, with tag arguments already parsed and
target paths as raw `RPath`s. -/
structure SetArgs : Type where
  replace : Bool
  tag : List Tag
  tagUrl : List Tag
  tagNum : List Tag
  tagBool : List Tag
  drop : List String
  dropAll : Bool
  comment : Option String
  dropComment : Bool
  self : Bool
  files : List RPath

/-- `has_tags` from src/src/set.rs. -/
def has_tags (args : SetArgs) : Bool :=
  ¬ args.tag.isEmpty ∨ ¬ args.tagUrl.isEmpty ∨
    ¬ args.tagNum.isEmpty ∨ ¬ args.tagBool.isEmpty

/-- `update_tags` from src/src/set.rs: drop-all clears; otherwise, when
tags are supplied or dropped, either clear (replace) or remove the drop
list, then merge in the new tags; with nothing to add or drop the map is
untouched. -/
def update_tags (args : SetArgs) (tags : TagsMap) : TagsMap :=
  if args.dropAll then []
  else if has_tags args ∨ ¬ args.drop.isEmpty then
    let base := if args.replace then [] else args.drop.foldl mapRemove tags
    mapExtend base (args.tag ++ args.tagUrl ++ args.tagNum ++ args.tagBool)
  else tags

/-- Comment update shared by both branches of `set_data`. -/
def applyComment (args : SetArgs) (c : Option String) : Option String :=
  if args.dropComment then none
  else
    match args.comment with
    | some c' => some c'
    | none => c

/-- One iteration of the per-path loop in `set_data`: a resolution failure
is printed and skipped; an existing entry is updated in place with
`updated` stamped to now; a missing entry is created from
`FileData::default()` (whose `updated` stays `None`). -/
def setStep (cwd root : List String) (args : SetArgs) (now : DateTime)
    (acc : Db × List String) (p : RPath) : Db × List String :=
  match from_root cwd root p with
  | .error e => (acc.1, acc.2 ++ [e.message])
  | .ok (_full, entry) =>
    match mapGet acc.1.files entry with
    | some existing =>
      let updatedEntry : FileData :=
        { tags := update_tags args existing.tags,
          comment := applyComment args existing.comment,
          created := existing.created,
          updated := some now }
      ({ acc.1 with files := mapInsert acc.1.files entry updatedEntry }, acc.2)
    | none =>
      let d0 := FileData.default now
      let newEntry : FileData :=
        { d0 with
            tags := update_tags args d0.tags,
            comment := applyComment args d0.comment }
      ({ acc.1 with files := mapInsert acc.1.files entry newEntry }, acc.2)

/-- The `--self` branch of `set_data`: mutate the store's own tags and
comment (note: without touching the store's `updated` timestamp). -/
def selfApply (args : SetArgs) (db : Db) : Db :=
  if args.self then
    { db with
        tags := update_tags args db.tags,
        comment := applyComment args db.comment }
  else db

/-- `set_data` from src/src/set.rs (in-memory part): apply the `--self`
mutation, then fold the per-path loop over the file arguments.  Returns
the mutated store and the printed messages. -/
def set_data (cwd root : List String) (db : Db) (args : SetArgs)
    (now : DateTime) : Db × List String :=
  args.files.foldl (setStep cwd root args now) (selfApply args db, [])

/-- The whole `set` command: a store-load failure aborts before any
mutation; otherwise the in-memory mutation runs, and a store-save failure
(modelled by the `saveOk` flag) aborts the command after it. -/
def set_cmd (loadRes : Except String Db) (saveOk : Bool)
    (cwd root : List String) (args : SetArgs) (now : DateTime) :
    Except String (Db × List String) :=
  match loadRes with
  | .error e => .error e
  | .ok db =>
    let out := set_data cwd root db args now
    if saveOk then .ok out else .error "save failed"

/-- Observable events of a command: a printed line or the store save. -/
inductive Event : Type where
  | print (s : String)
  | save
deriving DecidableEq, Repr

/-- `delete_coll` from src/src/coll/delete.rs: a missing collection name
prints a message and returns success without saving; otherwise the
collection is removed, the store saved, and only then (under `--files`)
the member count and keys printed. -/
def delete_coll (db : Db) (name : String) (filesFlag : Bool) :
    Db × List Event :=
  match mapGet db.collections name with
  | none => (db, [Event.print "collection not found"])
  | some files =>
    let db' := { db with collections := mapRemove db.collections name }
    (db',
      Event.save ::
        (if filesFlag then
          Event.print (toString files.length ++ " files") ::
            files.map Event.print
        else []))

/-- The `MetaContainer` view used by the sort comparator: `created` and
`updated` as exposed by both `Db` and `FileData`. -/
structure MetaView : Type where
  created : DateTime
  updated : Option DateTime
deriving DecidableEq, Repr

/-- `MetaContainer::modified`: `updated` if present else `created`. -/
def MetaView.modified (m : MetaView) : DateTime :=
  m.updated.getD m.created

/-- SortBy from src/src/get.rs. -/
inductive SortBy : Type where
  | name
  | date
  | created
  | updated
deriving DecidableEq, Repr

/-- One criterion of the composite comparator in `sorted_insert`;
`other` is the list element and `item` the entry being inserted. -/
def critCmp (c : SortBy) (other item : String × MetaView) : Ordering :=
  match c with
  | .name => linCmp other.1 item.1
  | .date => linCmp other.2.modified item.2.modified
  | .created => linCmp other.2.created item.2.created
  | .updated =>
    match other.2.updated, item.2.updated with
    | some a, some b => linCmp a b
    | some _, none => .lt
    | none, some _ => .gt
    | none, none => .eq

/-- The composite comparator of `sorted_insert` from src/src/get.rs:
criteria are evaluated left to right, moving on only on exact equality. -/
def cmpEntry (sortBy : List SortBy) (other item : String × MetaView) :
    Ordering :=
  match sortBy with
  | [] => .eq
  | c :: rest =>
    match critCmp c other item with
    | .eq => cmpEntry rest other item
    | o => o

instance : Inhabited MetaView := ⟨⟨0, none⟩⟩

/-- Rust `slice::binary_search_by`: the inner loop, returning `inl mid`
on an exact comparator hit and `inr left` with the insertion point
otherwise.  The fuel argument is only a structural-recursion bound: the
searched interval at least halves each step, so `right - left` fuel
always suffices. -/
def bsLoop {α : Type} [Inhabited α] (f : α → Ordering) (l : List α) :
    Nat → Nat → Nat → Sum Nat Nat
  | 0, left, _ => .inr left
  | fuel + 1, left, right =>
    if left < right then
      let size := right - left
      let mid := left + size / 2
      match f (l.getD mid default) with
      | .lt => bsLoop f l fuel (mid + 1) right
      | .gt => bsLoop f l fuel left mid
      | .eq => .inl mid
    else .inr left

/-- `binary_search_by` on a whole list. -/
def binarySearchBy {α : Type} [Inhabited α] (l : List α) (f : α → Ordering) :
    Sum Nat Nat :=
  bsLoop f l l.length 0 l.length

/-- Collapse the two arms of a `binary_search_by` result into the index
at which `sorted_insert` inserts (its `Ok` and `Err` arms insert at the
returned index alike). -/
def bsIdx : Sum Nat Nat → Nat
  | .inl i => i
  | .inr i => i

/-- `sorted_insert` from src/src/get.rs: binary-search for the insertion
point under the composite comparator and insert there. -/
def sorted_insert (key : String) (meta : MetaView)
    (filteredItems : List (String × MetaView)) (sortBy : List SortBy) :
    List (String × MetaView) :=
  let idx := bsIdx (binarySearchBy filteredItems
    (fun other => cmpEntry sortBy other (key, meta)))
  filteredItems.insertIdx idx (key, meta)

/-- `check_filter` from src/src/get.rs: an entry passes only if its tag
map contains every include key and none of the exclude keys. -/
def check_filter (tags : TagsMap) (includes excludes : List String) : Bool :=
  includes.all (fun k => mapContains tags k) ∧
    excludes.all (fun k => ¬ mapContains tags k)

/-- `INVALID_CHARS` from src/src/tags.rs. -/
def INVALID_CHARS : List Char := ['\\', ':', ',', '!']

/-- Rust `char::is_control`: the Unicode `Cc` category. -/
def rustIsControl (c : Char) : Bool :=
  c.toNat < 0x20 ∨ (0x7F ≤ c.toNat ∧ c.toNat ≤ 0x9F)

/-- Rust `char::is_whitespace`: the Unicode `White_Space` property. -/
def rustIsWhitespace (c : Char) : Bool :=
  c.toNat ∈ ([0x09, 0x0A, 0x0B, 0x0C, 0x0D, 0x20, 0x85, 0xA0, 0x1680,
    0x2000, 0x2001, 0x2002, 0x2003, 0x2004, 0x2005, 0x2006, 0x2007,
    0x2008, 0x2009, 0x200A, 0x2028, 0x2029, 0x202F, 0x205F, 0x3000] :
      List Nat)

/-- TagKey from src/src/tags.rs: a validated tag name. -/
structure TagKey : Type where
  inner : String
deriving DecidableEq, Repr

/-- `TagKey::from_str`: reject any character that is a control character,
whitespace, or one of `INVALID_CHARS`. -/
def tagKeyFromStr (value : String) : Except String TagKey :=
  if value.data.any
      (fun ch => rustIsControl ch ∨ rustIsWhitespace ch ∨ ch ∈ INVALID_CHARS)
  then .error "the provided tag key contains invalid characters"
  else .ok ⟨value⟩

/-- Digits-to-number accumulator used by the integer parsers. -/
def digitsToNat (ds : List Char) : Nat :=
  ds.foldl (fun a c => 10 * a + (c.toNat - 48)) 0

/-- Rust `i64::from_str`: optional sign, one or more ASCII digits, and a
range check against the i64 bounds. -/
def rustParseI64 (s : String) : Option Int :=
  let (neg, ds) :=
    match s.data with
    | '+' :: rest => (false, rest)
    | '-' :: rest => (true, rest)
    | l => (false, l)
  if ds.isEmpty ∨ ¬ ds.all Char.isDigit then none
  else
    let v : Int := if neg then -(digitsToNat ds : Int) else (digitsToNat ds : Int)
    if -(2 ^ 63) ≤ v ∧ v < 2 ^ 63 then some v else none

/-- Rust `bool::from_str`. -/
def rustParseBool (s : String) : Option Bool :=
  if s = "true" then some true
  else if s = "false" then some false
  else none

/-- Modelled from the spec: `url::Url::parse` from the external `url`
crate (not part of this repository).  A URL needs a scheme — an ASCII
letter followed by letters, digits, `+`, `-` or `.` — then a colon; an
accepted input stands for its parsed, normalized URL. -/
def urlParse (s : String) : Option String :=
  match s.data with
  | c :: rest =>
    if c.isAlpha ∧
        (rest.takeWhile (fun x => ¬ x = ':')).all
          (fun x => x.isAlphanum ∨ x = '+' ∨ x = '-' ∨ x = '.') ∧
        (rest.dropWhile (fun x => ¬ x = ':')).length > 0 then
      some s
    else none
  | [] => none

/-- `impl From<&str> for TagValue`: try integer, then boolean, then URL,
falling back to a plain string. -/
def TagValue.fromStr (value : String) : TagValue :=
  match rustParseI64 value with
  | some n => .number n
  | none =>
    match rustParseBool value with
    | some b => .bool b
    | none =>
      match urlParse value with
      | some u => .url u
      | none => .simple value

/-- `str::split_once` on character lists. -/
def splitOnceChars (cs : List Char) (sep : Char) :
    Option (List Char × List Char) :=
  match cs with
  | [] => none
  | x :: rest =>
    if x = sep then some ([], rest)
    else (splitOnceChars rest sep).map (fun p => (x :: p.1, p.2))

/-- `parse_tag` from src/src/tags.rs: split at the first colon; the name
is only checked for non-emptiness — `TagKey` validation is not applied. -/
def parse_tag (arg : String) : Except String Tag :=
  match splitOnceChars arg.data ':' with
  | some (name, value) =>
    if name.isEmpty then .error "tag name is empty"
    else if value.isEmpty then .ok (⟨name⟩, none)
    else .ok (⟨name⟩, some (TagValue.fromStr ⟨value⟩))
  | none =>
    if arg.data.isEmpty then .error "tag is empty"
    else .ok (arg, none)

/-- `get_name_value` from src/src/tags.rs, shared by the typed parsers. -/
def get_name_value (arg : String) : Except String (String × String) :=
  match splitOnceChars arg.data ':' with
  | some (name, value) =>
    if name.isEmpty then .error "tag name is empty"
    else if value.isEmpty then .error "missing url data"
    else .ok (⟨name⟩, ⟨value⟩)
  | none => .error "missing tag value"

/-- `parse_url_tag` from src/src/tags.rs. -/
def parse_url_tag (arg : String) : Except String Tag :=
  match get_name_value arg with
  | .error e => .error e
  | .ok (name, value) =>
    match urlParse value with
    | some u => .ok (name, some (.url u))
    | none => .error "invalid url provided"

/-- `parse_num_tag` from src/src/tags.rs. -/
def parse_num_tag (arg : String) : Except String Tag :=
  match get_name_value arg with
  | .error e => .error e
  | .ok (name, value) =>
    match rustParseI64 value with
    | some n => .ok (name, some (.number n))
    | none => .error "invalid num provided"

/-- `parse_bool_tag` from src/src/tags.rs. -/
def parse_bool_tag (arg : String) : Except String Tag :=
  match get_name_value arg with
  | .error e => .error e
  | .ok (name, value) =>
    match rustParseBool value with
    | some b => .ok (name, some (.bool b))
    | none => .error "invalid bool provided"

/-- Example filesystem: the nearest ancestor `a` has an empty `.fsm`
marker directory while the root's `.fsm` holds a compact-JSON store. -/
def fsC1 : Fs := fun p =>
  if p = ["a", ".fsm"] then some .dir
  else if p = [".fsm"] then some .dir
  else if p = [".fsm", "db.json"] then some .file
  else none

/-- Example filesystem for the initializer: the working directory already
has a `.fsm` directory containing a compact-JSON store file. -/
def fsC3 : FsN := fun p =>
  if p = [".fsm"] then some .dir
  else if p = [".fsm", "db.json"] then some (.file (Db.default 0))
  else none

/-- Example file entry under the pre-rename key. -/
def fdOld : FileData :=
  { tags := [], comment := some "old entry", created := 1, updated := none }

/-- Example file entry occupying the renamed key. -/
def fdNew : FileData :=
  { tags := [], comment := some "new entry", created := 2, updated := none }

/-- Example files map holding entries under both rename keys. -/
def filesC2 : List (String × FileData) :=
  [("new.txt", fdNew), ("old.txt", fdOld)]

/-- Set arguments that only set a comment on the store itself. -/
def argsC7 : SetArgs :=
  { replace := false, tag := [], tagUrl := [], tagNum := [], tagBool := [],
    drop := [], dropAll := false, comment := some "test",
    dropComment := false, self := true, files := [] }

/-- Set arguments that request no tag or comment change at all. -/
def argsNoop : SetArgs :=
  { replace := false, tag := [], tagUrl := [], tagNum := [], tagBool := [],
    drop := [], dropAll := false, comment := none,
    dropComment := false, self := false, files := [] }

/-- Example store with a single file entry under key `a.txt`. -/
def dbW7 : Db := { Db.default 0 with files := [("a.txt", fdOld)] }

/-- Example store with one collection of two member keys. -/
def dbC10 : Db :=
  { Db.default 0 with collections := [("favs", ["a.txt", "b.txt"])] }

/-- Non-strict order induced by the composite comparator: `a` may stay
before `b`. -/
def entryLe (sortBy : List SortBy) (a b : String × MetaView) : Prop :=
  cmpEntry sortBy a b ≠ .gt

/-- Decimal digit accumulator for `natToChars`; the fuel argument is only
a structural-recursion bound (`n` itself always suffices, since `n / 10`
decreases). -/
def natToCharsAux : Nat → Nat → List Char → List Char
  | 0, n, acc => Char.ofNat (48 + n % 10) :: acc
  | f + 1, n, acc =>
    if n < 10 then Char.ofNat (48 + n) :: acc
    else natToCharsAux f (n / 10) (Char.ofNat (48 + n % 10) :: acc)

/-- Decimal rendering of a natural number (as `itoa` does for serde). -/
def natToChars (n : Nat) : List Char := natToCharsAux n n []

/-- Decimal rendering of an integer. -/
def intToChars (i : Int) : List Char :=
  if i < 0 then '-' :: natToChars (-i).toNat else natToChars i.toNat

/-- Modelled from the spec: chrono serializes a `DateTime<Utc>` as a
string that parses back to the same instant (RFC 3339 on the wire); with
instants modelled as integers, the string is the decimal rendering. -/
def dtToString (t : DateTime) : String := ⟨intToChars t⟩

/-- Modelled from the spec: the inverse parse of `dtToString` on a
character list — the whole input must be a decimal integer. -/
def dtParseChars : List Char → Option DateTime
  | [] => none
  | c :: ds =>
    if c = '-' then
      if ds.isEmpty ∨ ¬ ds.all Char.isDigit then none
      else some (-(digitsToNat ds : Int))
    else
      if ¬ (c :: ds).all Char.isDigit then none
      else some ((digitsToNat (c :: ds) : Int))

/-- Modelled from the spec: the inverse parse of `dtToString`. -/
def dtParse (s : String) : Option DateTime := dtParseChars s.data

mutual

/-- JSON document tree: the serde data model as serde_json renders it.
Arrays and objects carry their own list types so that all recursion
stays structural. -/
inductive Json : Type where
  | null
  | bool (b : Bool)
  | num (n : Int)
  | str (s : String)
  | arr (elems : JsonList)
  | obj (fields : JsonFields)

/-- List of JSON array elements. -/
inductive JsonList : Type where
  | nil
  | cons (v : Json) (tail : JsonList)

/-- List of JSON object fields. -/
inductive JsonFields : Type where
  | nil
  | cons (k : String) (v : Json) (tail : JsonFields)

end

/-- Lower-case hex digit. -/
def hexDigit (n : Nat) : Char :=
  if n < 10 then Char.ofNat (48 + n) else Char.ofNat (87 + n)

/-- serde_json's string escaping: quote, backslash, the short control
escapes, and `\u00XX` for the remaining control characters; everything
else is passed through. -/
def escapeChar (c : Char) : List Char :=
  if c = '"' then ['\\', '"']
  else if c = '\\' then ['\\', '\\']
  else if c.toNat = 8 then ['\\', 'b']
  else if c = '\t' then ['\\', 't']
  else if c = '\n' then ['\\', 'n']
  else if c.toNat = 12 then ['\\', 'f']
  else if c.toNat = 13 then ['\\', 'r']
  else if c.toNat < 32 then
    ['\\', 'u', '0', '0', hexDigit (c.toNat / 16), hexDigit (c.toNat % 16)]
  else [c]

/-- Escape a whole string body. -/
def escapeStr (cs : List Char) : List Char := cs.flatMap escapeChar

/-- Render a JSON string literal. -/
def renderStr (s : String) : List Char := '"' :: (escapeStr s.data ++ ['"'])

/-- Newline-plus-indent emitted by the pretty printer (two-space
indentation, as serde_json's default `PrettyFormatter`); nothing in
compact mode. -/
def nlIndent (pretty : Bool) (depth : Nat) : List Char :=
  if pretty then '\n' :: List.replicate (2 * depth) ' ' else []

/-- The space after `:` emitted by the pretty printer. -/
def sepSpace (pretty : Bool) : List Char := if pretty then [' '] else []

mutual

/-- Render a JSON value the way `serde_json::to_writer` (compact) and
`to_writer_pretty` (pretty) lay it out. -/
def renderJson (pretty : Bool) : Nat → Json → List Char
  | _, .null => ['n', 'u', 'l', 'l']
  | _, .bool true => ['t', 'r', 'u', 'e']
  | _, .bool false => ['f', 'a', 'l', 's', 'e']
  | _, .num n => intToChars n
  | _, .str s => renderStr s
  | _, .arr .nil => ['[', ']']
  | depth, .arr (.cons v vs) =>
    '[' :: (nlIndent pretty (depth + 1)
      ++ renderItems pretty (depth + 1) (.cons v vs)
      ++ nlIndent pretty depth ++ [']'])
  | _, .obj .nil => ['{', '}']
  | depth, .obj (.cons k v fs) =>
    '{' :: (nlIndent pretty (depth + 1)
      ++ renderFields pretty (depth + 1) (.cons k v fs)
      ++ nlIndent pretty depth ++ ['}'])

/-- Render array items, comma-separated. -/
def renderItems (pretty : Bool) : Nat → JsonList → List Char
  | _, .nil => []
  | depth, .cons v .nil => renderJson pretty depth v
  | depth, .cons v (.cons w ws) =>
    renderJson pretty depth v
      ++ ',' :: (nlIndent pretty depth ++ renderItems pretty depth (.cons w ws))

/-- Render object fields, comma-separated. -/
def renderFields (pretty : Bool) : Nat → JsonFields → List Char
  | _, .nil => []
  | depth, .cons k v .nil =>
    renderStr k ++ ':' :: (sepSpace pretty ++ renderJson pretty depth v)
  | depth, .cons k v (.cons k2 v2 fs) =>
    renderStr k ++ ':' :: (sepSpace pretty ++ renderJson pretty depth v)
      ++ ',' :: (nlIndent pretty depth
        ++ renderFields pretty depth (.cons k2 v2 fs))

end


/-- Hexadecimal digit value (serde_json accepts both cases). -/
def hexVal (c : Char) : Option Nat :=
  if 48 ≤ c.toNat ∧ c.toNat ≤ 57 then some (c.toNat - 48)
  else if 97 ≤ c.toNat ∧ c.toNat ≤ 102 then some (c.toNat - 87)
  else if 65 ≤ c.toNat ∧ c.toNat ≤ 70 then some (c.toNat - 55)
  else none

/-- Is this one of the JSON whitespace characters (space, newline, tab,
carriage return)? -/
def isWsChar (c : Char) : Bool :=
  c = ' ' ∨ c = '\n' ∨ c = '\t' ∨ c = Char.ofNat 13

/-- Skip JSON whitespace. -/
def skipWs : List Char → List Char
  | [] => []
  | c :: rest => if isWsChar c then skipWs rest else c :: rest

/-- Handle one escape sequence after a backslash; `k` continues parsing
the remainder of the string body. -/
def parseStrEscape (k : List Char → Option (List Char × List Char)) :
    List Char → Option (List Char × List Char)
  | [] => none
  | e :: r1 =>
    if e = '"' then (k r1).map (fun p => ('"' :: p.1, p.2))
    else if e = '\\' then (k r1).map (fun p => ('\\' :: p.1, p.2))
    else if e = '/' then (k r1).map (fun p => ('/' :: p.1, p.2))
    else if e = 'b' then (k r1).map (fun p => (Char.ofNat 8 :: p.1, p.2))
    else if e = 't' then (k r1).map (fun p => ('\t' :: p.1, p.2))
    else if e = 'n' then (k r1).map (fun p => ('\n' :: p.1, p.2))
    else if e = 'f' then (k r1).map (fun p => (Char.ofNat 12 :: p.1, p.2))
    else if e = 'r' then (k r1).map (fun p => (Char.ofNat 13 :: p.1, p.2))
    else if e = 'u' then
      match r1 with
      | h1 :: h2 :: h3 :: h4 :: r2 =>
        match hexVal h1, hexVal h2, hexVal h3, hexVal h4 with
        | some a, some b, some c2, some d =>
          (k r2).map (fun p =>
            (Char.ofNat (4096 * a + 256 * b + 16 * c2 + d) :: p.1, p.2))
        | _, _, _, _ => none
      | _ => none
    else none

/-- Parse a JSON string body after the opening quote; returns the
unescaped content.  The fuel argument is only a structural-recursion
bound (the input length always suffices); a raw control character is
rejected, as serde_json does. -/
def parseStrAux : Nat → List Char → Option (List Char × List Char)
  | _, [] => none
  | fuel, c :: rest =>
    if c = '"' then some ([], rest)
    else
      match fuel with
      | 0 => none
      | f + 1 =>
        if c = '\\' then parseStrEscape (parseStrAux f) rest
        else if c.toNat < 32 then none
        else (parseStrAux f rest).map (fun p => (c :: p.1, p.2))

/-- Parse a digit run into a natural number. -/
def parseNatNum (cs : List Char) : Option (Nat × List Char) :=
  let ds := cs.takeWhile Char.isDigit
  if ds.isEmpty then none
  else some (digitsToNat ds, cs.dropWhile Char.isDigit)

/-- Parse a JSON integer (optional minus, digit run). -/
def parseNum (cs : List Char) : Option (Int × List Char) :=
  match cs with
  | [] => none
  | c :: rest =>
    if c = '-' then (parseNatNum rest).map (fun p => (-(p.1 : Int), p.2))
    else (parseNatNum (c :: rest)).map (fun p => ((p.1 : Int), p.2))

mutual

/-- Recursive-descent JSON value parser over characters, mirroring what
serde_json accepts on the documents this program writes.  The fuel
argument is only a structural-recursion bound. -/
def parseVal : Nat → List Char → Option (Json × List Char)
  | 0, _ => none
  | f + 1, cs =>
    match skipWs cs with
    | 'n' :: 'u' :: 'l' :: 'l' :: rest => some (.null, rest)
    | 't' :: 'r' :: 'u' :: 'e' :: rest => some (.bool true, rest)
    | 'f' :: 'a' :: 'l' :: 's' :: 'e' :: rest => some (.bool false, rest)
    | '"' :: rest =>
      match parseStrAux rest.length rest with
      | some (content, r) => some (.str ⟨content⟩, r)
      | none => none
    | '[' :: rest =>
      match skipWs rest with
      | ']' :: r2 => some (.arr .nil, r2)
      | r2 =>
        match parseElems f r2 with
        | some (vs, r3) => some (.arr vs, r3)
        | none => none
    | '{' :: rest =>
      match skipWs rest with
      | '}' :: r2 => some (.obj .nil, r2)
      | r2 =>
        match parseFields f r2 with
        | some (fs, r3) => some (.obj fs, r3)
        | none => none
    | rest =>
      match parseNum rest with
      | some (n, r) => some (.num n, r)
      | none => none

/-- Parse one or more comma-separated array items up to the closing
bracket. -/
def parseElems : Nat → List Char → Option (JsonList × List Char)
  | 0, _ => none
  | f + 1, cs =>
    match parseVal f cs with
    | some (v, r1) =>
      match skipWs r1 with
      | ',' :: r2 =>
        match parseElems f r2 with
        | some (vs, r3) => some (.cons v vs, r3)
        | none => none
      | ']' :: r2 => some (.cons v .nil, r2)
      | _ => none
    | none => none

/-- Parse one or more comma-separated object fields up to the closing
brace. -/
def parseFields : Nat → List Char → Option (JsonFields × List Char)
  | 0, _ => none
  | f + 1, cs =>
    match skipWs cs with
    | '"' :: r0 =>
      match parseStrAux r0.length r0 with
      | some (kcontent, r1) =>
        match skipWs r1 with
        | ':' :: r2 =>
          match parseVal f r2 with
          | some (v, r3) =>
            match skipWs r3 with
            | ',' :: r4 =>
              match parseFields f r4 with
              | some (fs, r5) => some (.cons ⟨kcontent⟩ v fs, r5)
              | none => none
            | '}' :: r4 => some (.cons ⟨kcontent⟩ v .nil, r4)
            | _ => none
          | none => none
        | _ => none
      | none => none
    | _ => none

end


mutual

/-- Parser fuel that suffices for a value (see the round-trip lemmas). -/
def jsonFuel : Json → Nat
  | .arr l => 1 + elemsFuel l
  | .obj l => 1 + fieldsFuel l
  | _ => 1

/-- Parser fuel that suffices for array items. -/
def elemsFuel : JsonList → Nat
  | .nil => 1
  | .cons v ws => 1 + max (jsonFuel v) (elemsFuel ws)

/-- Parser fuel that suffices for object fields. -/
def fieldsFuel : JsonFields → Nat
  | .nil => 1
  | .cons _ v fs => 1 + max (jsonFuel v) (fieldsFuel fs)

end

/-- Convert a Lean list of values into a `JsonList`. -/
def jsonListOf : List Json → JsonList
  | [] => .nil
  | v :: vs => .cons v (jsonListOf vs)

/-- Convert a Lean list of fields into `JsonFields`. -/
def jsonFieldsOf : List (String × Json) → JsonFields
  | [] => .nil
  | (k, v) :: fs => .cons k v (jsonFieldsOf fs)

/-- serde encoding of `Option<T>`: `None` is null, `Some` is the value. -/
def encodeOpt {α : Type} (f : α → Json) : Option α → Json
  | none => .null
  | some x => f x

/-- Derived serde encoding of `TagValue`: an externally tagged union. -/
def encodeTagValue : TagValue → Json
  | .number n => .obj (.cons "Number" (.num n) .nil)
  | .bool b => .obj (.cons "Bool" (.bool b) .nil)
  | .url u => .obj (.cons "Url" (.str u) .nil)
  | .simple s => .obj (.cons "Simple" (.str s) .nil)

/-- Derived serde encoding of a `TagsMap`: an object in key order. -/
def encodeTags (t : TagsMap) : Json :=
  .obj (jsonFieldsOf (t.map (fun kv => (kv.1, encodeOpt encodeTagValue kv.2))))

/-- Derived serde encoding of `FileData`: fields in declaration order. -/
def encodeFileData (fd : FileData) : Json :=
  .obj (.cons "tags" (encodeTags fd.tags)
    (.cons "comment" (encodeOpt .str fd.comment)
      (.cons "created" (.str (dtToString fd.created))
        (.cons "updated" (encodeOpt (fun u => .str (dtToString u)) fd.updated)
          .nil))))

/-- Derived serde encoding of a collection (`BTreeSet<Box<str>>`): an
array in element order. -/
def encodeColl (l : List String) : Json := .arr (jsonListOf (l.map .str))

/-- Derived serde encoding of the whole `Db` body. -/
def encodeDb (db : Db) : Json :=
  .obj (.cons "files"
      (.obj (jsonFieldsOf (db.files.map (fun kv => (kv.1, encodeFileData kv.2)))))
    (.cons "collections"
      (.obj (jsonFieldsOf (db.collections.map (fun kv => (kv.1, encodeColl kv.2)))))
      (.cons "tags" (encodeTags db.tags)
        (.cons "comment" (encodeOpt .str db.comment)
          (.cons "created" (.str (dtToString db.created))
            (.cons "updated"
              (encodeOpt (fun u => .str (dtToString u)) db.updated) .nil))))))

/-- `BTreeSet::insert` on an ordered list of strings. -/
def setInsert (s : List String) (k : String) : List String :=
  match s with
  | [] => [k]
  | x :: rest =>
    if k < x then k :: x :: rest
    else if k = x then x :: rest
    else x :: setInsert rest k

/-- Rebuild a `BTreeMap` the way serde deserializes one: insert each
decoded entry in stream order. -/
def mapFromList {β : Type} (l : List (String × β)) : List (String × β) :=
  l.foldl (fun m kv => mapInsert m kv.1 kv.2) []

/-- Rebuild a `BTreeSet` the way serde deserializes one. -/
def setFromList (l : List String) : List String :=
  l.foldl setInsert []

/-- Decode a JSON string. -/
def decodeStr : Json → Option String
  | .str s => some s
  | _ => none

/-- Decode a serialized timestamp. -/
def decodeDT (j : Json) : Option DateTime :=
  match decodeStr j with
  | some s => dtParse s
  | none => none

/-- serde decoding of `Option<T>`: null is `None`, else `Some` of the
decoded value. -/
def decodeOpt {α : Type} (f : Json → Option α) : Json → Option (Option α)
  | .null => some none
  | j => (f j).map some

/-- Derived serde decoding of `TagValue` (externally tagged). -/
def decodeTagValue : Json → Option TagValue
  | .obj (.cons k v .nil) =>
    if k = "Number" then
      match v with
      | .num n => some (.number n)
      | _ => none
    else if k = "Bool" then
      match v with
      | .bool b => some (.bool b)
      | _ => none
    else if k = "Url" then (decodeStr v).map .url
    else if k = "Simple" then (decodeStr v).map .simple
    else none
  | _ => none

/-- Decode the fields of a tags object in stream order. -/
def decodeTagFields : JsonFields → Option (List (String × Option TagValue))
  | .nil => some []
  | .cons k v fs =>
    match decodeOpt decodeTagValue v, decodeTagFields fs with
    | some tv, some rest => some ((k, tv) :: rest)
    | _, _ => none

/-- Derived serde decoding of a `TagsMap`. -/
def decodeTags : Json → Option TagsMap
  | .obj fs => (decodeTagFields fs).map mapFromList
  | _ => none

/-- Derived serde decoding of `FileData` (canonical field order). -/
def decodeFileData : Json → Option FileData
  | .obj (.cons "tags" jt (.cons "comment" jc
      (.cons "created" jcr (.cons "updated" ju .nil)))) =>
    match decodeTags jt, decodeOpt decodeStr jc, decodeDT jcr,
        decodeOpt decodeDT ju with
    | some t, some c, some cr, some u =>
      some { tags := t, comment := c, created := cr, updated := u }
    | _, _, _, _ => none
  | _ => none

/-- Decode an array of strings in stream order. -/
def decodeStrElems : JsonList → Option (List String)
  | .nil => some []
  | .cons v vs =>
    match decodeStr v, decodeStrElems vs with
    | some s, some rest => some (s :: rest)
    | _, _ => none

/-- Derived serde decoding of a collection. -/
def decodeColl : Json → Option (List String)
  | .arr l => (decodeStrElems l).map setFromList
  | _ => none

/-- Decode the fields of the files object in stream order. -/
def decodeFileFields : JsonFields → Option (List (String × FileData))
  | .nil => some []
  | .cons k v fs =>
    match decodeFileData v, decodeFileFields fs with
    | some fd, some rest => some ((k, fd) :: rest)
    | _, _ => none

/-- Decode the fields of the collections object in stream order. -/
def decodeCollFields : JsonFields → Option (List (String × List String))
  | .nil => some []
  | .cons k v fs =>
    match decodeColl v, decodeCollFields fs with
    | some c, some rest => some ((k, c) :: rest)
    | _, _ => none

/-- Derived serde decoding of the whole `Db` body (canonical field
order). -/
def decodeDb : Json → Option Db
  | .obj (.cons "files" jf (.cons "collections" jc (.cons "tags" jt
      (.cons "comment" jcm (.cons "created" jcr
        (.cons "updated" ju .nil)))))) =>
    match jf, jc with
    | .obj ffs, .obj cfs =>
      match decodeFileFields ffs, decodeCollFields cfs, decodeTags jt,
          decodeOpt decodeStr jcm, decodeDT jcr, decodeOpt decodeDT ju with
      | some files, some colls, some tags, some comm, some cr, some upd =>
        some { files := mapFromList files, collections := mapFromList colls,
               tags := tags, comment := comm, created := cr, updated := upd }
      | _, _, _, _, _, _ => none
    | _, _ => none
  | _ => none

/-- Eight little-endian bytes of a `u64` (bincode's fixed-int length and
integer encoding). -/
def u64Bytes (n : Nat) : List Nat :=
  [n % 256, n / 256 % 256, n / 256 ^ 2 % 256, n / 256 ^ 3 % 256,
   n / 256 ^ 4 % 256, n / 256 ^ 5 % 256, n / 256 ^ 6 % 256, n / 256 ^ 7 % 256]

/-- Read eight little-endian bytes as a `u64`. -/
def readU64 : List Nat → Option (Nat × List Nat)
  | b0 :: b1 :: b2 :: b3 :: b4 :: b5 :: b6 :: b7 :: rest =>
    some (b0 + 256 * b1 + 256 ^ 2 * b2 + 256 ^ 3 * b3 + 256 ^ 4 * b4
      + 256 ^ 5 * b5 + 256 ^ 6 * b6 + 256 ^ 7 * b7, rest)
  | _ => none

/-- Four little-endian bytes of a `u32` (bincode's enum variant index). -/
def u32Bytes (n : Nat) : List Nat :=
  [n % 256, n / 256 % 256, n / 256 ^ 2 % 256, n / 256 ^ 3 % 256]

/-- Read four little-endian bytes as a `u32`. -/
def readU32 : List Nat → Option (Nat × List Nat)
  | b0 :: b1 :: b2 :: b3 :: rest =>
    some (b0 + 256 * b1 + 256 ^ 2 * b2 + 256 ^ 3 * b3, rest)
  | _ => none

/-- Eight little-endian bytes of an `i64` in two's complement. -/
def i64Bytes (i : Int) : List Nat := u64Bytes ((i % (2 ^ 64 : Int)).toNat)

/-- Read an `i64` from eight little-endian bytes. -/
def readI64 (bs : List Nat) : Option (Int × List Nat) :=
  (readU64 bs).map (fun p =>
    (if p.1 < 2 ^ 63 then (p.1 : Int) else (p.1 : Int) - 2 ^ 64, p.2))

/-- UTF-8 encoding of one character. -/
def utf8Char (c : Char) : List Nat :=
  let n := c.toNat
  if n < 128 then [n]
  else if n < 2048 then [192 + n / 64, 128 + n % 64]
  else if n < 65536 then [224 + n / 4096, 128 + n / 64 % 64, 128 + n % 64]
  else [240 + n / 262144, 128 + n / 4096 % 64, 128 + n / 64 % 64, 128 + n % 64]

/-- UTF-8 encoding of a character sequence. -/
def utf8Chars (cs : List Char) : List Nat := cs.flatMap utf8Char

/-- UTF-8 encoding of a string. -/
def utf8Str (s : String) : List Nat := utf8Chars s.data

/-- bincode encoding of a string: `u64` byte length, then UTF-8 bytes. -/
def strBytes (s : String) : List Nat :=
  u64Bytes (utf8Str s).length ++ utf8Str s

/-- Decode one UTF-8 character from a byte stream. -/
def utf8DecodeChar : List Nat → Option (Char × List Nat)
  | [] => none
  | b :: rest =>
    if b < 128 then some (Char.ofNat b, rest)
    else if b < 192 then none
    else if b < 224 then
      match rest with
      | b2 :: r =>
        if 128 ≤ b2 ∧ b2 < 192 then
          some (Char.ofNat ((b - 192) * 64 + (b2 - 128)), r)
        else none
      | [] => none
    else if b < 240 then
      match rest with
      | b2 :: b3 :: r =>
        if (128 ≤ b2 ∧ b2 < 192) ∧ (128 ≤ b3 ∧ b3 < 192) then
          some (Char.ofNat ((b - 224) * 4096 + (b2 - 128) * 64 + (b3 - 128)), r)
        else none
      | _ => none
    else if b < 248 then
      match rest with
      | b2 :: b3 :: b4 :: r =>
        if (128 ≤ b2 ∧ b2 < 192) ∧ (128 ≤ b3 ∧ b3 < 192)
            ∧ (128 ≤ b4 ∧ b4 < 192) then
          some (Char.ofNat ((b - 240) * 262144 + (b2 - 128) * 4096
            + (b3 - 128) * 64 + (b4 - 128)), r)
        else none
      | _ => none
    else none

/-- Decode a whole UTF-8 byte sequence; the fuel argument is only a
structural-recursion bound (the byte count always suffices). -/
def utf8DecodeLoop : Nat → List Nat → Option (List Char)
  | _, [] => some []
  | 0, _ :: _ => none
  | f + 1, bs =>
    match utf8DecodeChar bs with
    | some (c, r) =>
      match utf8DecodeLoop f r with
      | some cs => some (c :: cs)
      | none => none
    | none => none

/-- bincode decoding of a string. -/
def readStrBin (bs : List Nat) : Option (String × List Nat) :=
  match readU64 bs with
  | some (len, rest) =>
    if rest.length < len then none
    else
      match utf8DecodeLoop len (rest.take len) with
      | some cs => some (⟨cs⟩, rest.drop len)
      | none => none
  | none => none

/-- bincode encoding of a `bool`. -/
def boolByte (b : Bool) : List Nat := [if b then 1 else 0]

/-- bincode decoding of a `bool`. -/
def readBool : List Nat → Option (Bool × List Nat)
  | 0 :: r => some (false, r)
  | 1 :: r => some (true, r)
  | _ => none

/-- bincode encoding of `Option<T>`: one tag byte, then the value. -/
def optBytes {α : Type} (f : α → List Nat) : Option α → List Nat
  | none => [0]
  | some x => 1 :: f x

/-- bincode decoding of `Option<T>`. -/
def readOpt {α : Type} (f : List Nat → Option (α × List Nat)) :
    List Nat → Option (Option α × List Nat)
  | 0 :: r => some (none, r)
  | 1 :: r => (f r).map (fun p => (some p.1, p.2))
  | _ => none

/-- bincode encoding of a timestamp (chrono serializes it as a string). -/
def dtBytes (t : DateTime) : List Nat := strBytes (dtToString t)

/-- bincode decoding of a timestamp. -/
def readDT (bs : List Nat) : Option (DateTime × List Nat) :=
  match readStrBin bs with
  | some (s, r) =>
    match dtParse s with
    | some t => some (t, r)
    | none => none
  | none => none

/-- bincode encoding of a `TagValue`: `u32` variant index, then payload. -/
def tagValueBytes : TagValue → List Nat
  | .number n => u32Bytes 0 ++ i64Bytes n
  | .bool b => u32Bytes 1 ++ boolByte b
  | .url u => u32Bytes 2 ++ strBytes u
  | .simple s => u32Bytes 3 ++ strBytes s

/-- bincode decoding of a `TagValue`. -/
def readTagValue (bs : List Nat) : Option (TagValue × List Nat) :=
  match readU32 bs with
  | some (0, r) => (readI64 r).map (fun p => (.number p.1, p.2))
  | some (1, r) => (readBool r).map (fun p => (.bool p.1, p.2))
  | some (2, r) => (readStrBin r).map (fun p => (.url p.1, p.2))
  | some (3, r) => (readStrBin r).map (fun p => (.simple p.1, p.2))
  | _ => none

/-- bincode encoding of a string-keyed map: `u64` entry count, then
key/value pairs in iteration (key) order. -/
def mapBytes {β : Type} (f : β → List Nat) (m : List (String × β)) :
    List Nat :=
  u64Bytes m.length ++ m.flatMap (fun kv => strBytes kv.1 ++ f kv.2)

/-- bincode decoding of `count` key/value pairs. -/
def readPairs {β : Type} (readV : List Nat → Option (β × List Nat)) :
    Nat → List Nat → Option (List (String × β) × List Nat)
  | 0, bs => some ([], bs)
  | n + 1, bs =>
    match readStrBin bs with
    | some (k, r1) =>
      match readV r1 with
      | some (v, r2) =>
        match readPairs readV n r2 with
        | some (l, r3) => some ((k, v) :: l, r3)
        | none => none
      | none => none
    | none => none

/-- bincode decoding of a string-keyed map, rebuilt by insertion. -/
def readMap {β : Type} (readV : List Nat → Option (β × List Nat))
    (bs : List Nat) : Option (List (String × β) × List Nat) :=
  match readU64 bs with
  | some (n, r) => (readPairs readV n r).map (fun p => (mapFromList p.1, p.2))
  | none => none

/-- bincode encoding of a `BTreeSet<Box<str>>`: `u64` count, then
elements in order. -/
def strSetBytes (l : List String) : List Nat :=
  u64Bytes l.length ++ l.flatMap strBytes

/-- bincode decoding of `count` strings. -/
def readStrList : Nat → List Nat → Option (List String × List Nat)
  | 0, bs => some ([], bs)
  | n + 1, bs =>
    match readStrBin bs with
    | some (s, r1) =>
      match readStrList n r1 with
      | some (l, r2) => some (s :: l, r2)
      | none => none
    | none => none

/-- bincode decoding of a string set, rebuilt by insertion. -/
def readStrSet (bs : List Nat) : Option (List String × List Nat) :=
  match readU64 bs with
  | some (n, r) => (readStrList n r).map (fun p => (setFromList p.1, p.2))
  | none => none

/-- bincode encoding of a `TagsMap`. -/
def tagsBytes (t : TagsMap) : List Nat :=
  mapBytes (optBytes tagValueBytes) t

/-- bincode decoding of a `TagsMap`. -/
def readTags (bs : List Nat) : Option (TagsMap × List Nat) :=
  readMap (readOpt readTagValue) bs

/-- bincode encoding of `FileData`: fields in declaration order. -/
def fileDataBytes (fd : FileData) : List Nat :=
  tagsBytes fd.tags ++ optBytes strBytes fd.comment
    ++ dtBytes fd.created ++ optBytes dtBytes fd.updated

/-- bincode decoding of `FileData`. -/
def readFileData (bs : List Nat) : Option (FileData × List Nat) :=
  match readTags bs with
  | some (t, r1) =>
    match readOpt readStrBin r1 with
    | some (c, r2) =>
      match readDT r2 with
      | some (cr, r3) =>
        match readOpt readDT r3 with
        | some (u, r4) =>
          some ({ tags := t, comment := c, created := cr, updated := u }, r4)
        | none => none
      | none => none
    | none => none
  | none => none

/-- bincode encoding of the whole `Db` body: fields in declaration
order. -/
def dbBytes (db : Db) : List Nat :=
  mapBytes fileDataBytes db.files
    ++ mapBytes strSetBytes db.collections
    ++ tagsBytes db.tags
    ++ optBytes strBytes db.comment
    ++ dtBytes db.created
    ++ optBytes dtBytes db.updated

/-- bincode decoding of the whole `Db` body. -/
def readDb (bs : List Nat) : Option (Db × List Nat) :=
  match readMap readFileData bs with
  | some (files, r1) =>
    match readMap readStrSet r1 with
    | some (colls, r2) =>
      match readTags r2 with
      | some (t, r3) =>
        match readOpt readStrBin r3 with
        | some (c, r4) =>
          match readDT r4 with
          | some (cr, r5) =>
            match readOpt readDT r5 with
            | some (u, r6) =>
              some ({ files := files, collections := colls, tags := t,
                      comment := c, created := cr, updated := u }, r6)
            | none => none
          | none => none
        | none => none
      | none => none
    | none => none
  | none => none

/-- Keys of a map are strictly ascending — the `BTreeMap` invariant. -/
def MapWf {β : Type} (m : List (String × β)) : Prop :=
  List.Pairwise (fun a b : String × β => a.1 < b.1) m

/-- Elements of a set are strictly ascending — the `BTreeSet`
invariant. -/
def SetWf (l : List String) : Prop :=
  List.Pairwise (fun a b : String => a < b) l

/-- The string's UTF-8 byte length fits bincode's `u64` length prefix. -/
def strOk (s : String) : Prop := (utf8Str s).length < 2 ^ 64

/-- Invariants of a `TagValue`: numbers fit `i64`, strings have
encodable length. -/
def tagValueWf : TagValue → Prop
  | .number n => -(2 ^ 63) ≤ n ∧ n < 2 ^ 63
  | .bool _ => True
  | .url u => strOk u
  | .simple s => strOk s

/-- A well-formed optional comment. -/
def optStrOk : Option String → Prop
  | none => True
  | some s => strOk s

/-- A timestamp whose serialized string has encodable length. -/
def dtOk (t : DateTime) : Prop := strOk (dtToString t)

/-- A well-formed optional timestamp. -/
def optDtOk : Option DateTime → Prop
  | none => True
  | some t => dtOk t

/-- Invariants of a `TagsMap` as held by a `BTreeMap` of `i64`-backed
values. -/
def tagsWf (t : TagsMap) : Prop :=
  MapWf t ∧ t.length < 2 ^ 64 ∧
    ∀ kv ∈ t, strOk kv.1 ∧ ∀ v, kv.2 = some v → tagValueWf v

/-- Invariants of a `FileData` value. -/
def fileDataWf (fd : FileData) : Prop :=
  tagsWf fd.tags ∧ optStrOk fd.comment ∧ dtOk fd.created
    ∧ optDtOk fd.updated

/-- Invariants of a collection value. -/
def collWf (l : List String) : Prop :=
  SetWf l ∧ l.length < 2 ^ 64 ∧ ∀ s ∈ l, strOk s

/-- Invariants every in-memory `Db` maintains: `BTreeMap`/`BTreeSet`
orderedness, `i64` ranges, and lengths that fit bincode's `u64`
prefixes. -/
def dbWf (db : Db) : Prop :=
  MapWf db.files ∧ db.files.length < 2 ^ 64
    ∧ (∀ kv ∈ db.files, strOk kv.1 ∧ fileDataWf kv.2)
    ∧ MapWf db.collections ∧ db.collections.length < 2 ^ 64
    ∧ (∀ kv ∈ db.collections, strOk kv.1 ∧ collWf kv.2)
    ∧ tagsWf db.tags ∧ optStrOk db.comment ∧ dtOk db.created
    ∧ optDtOk db.updated

/-- `Context::write_file` from src/src/db.rs, by format: pretty JSON and
compact JSON render the serde document to UTF-8 bytes; binary runs the
body through bincode. -/
def write_file (fmt : Format) (db : Db) : List Nat :=
  match fmt with
  | .jsonPretty => utf8Chars (renderJson true 0 (encodeDb db))
  | .json => utf8Chars (renderJson false 0 (encodeDb db))
  | .binary => dbBytes db

/-- `Context::read_file` from src/src/db.rs, by format: JSON decodes the
bytes, parses one document (trailing whitespace only), and maps it onto
the body type; binary decodes the bincode stream. -/
def read_file (fmt : Format) (bytes : List Nat) : Option Db :=
  match fmt with
  | .jsonPretty | .json =>
    match utf8DecodeLoop bytes.length bytes with
    | some cs =>
      match parseVal (cs.length + 1) cs with
      | some (j, rest) =>
        if (skipWs rest).isEmpty then decodeDb j else none
      | none => none
    | none => none
  | .binary => (readDb bytes).map (fun p => p.1)

/-- A list of JSON whitespace characters only. -/
def WsOnly (w : List Char) : Prop := ∀ c ∈ w, isWsChar c = true

/-- The head of the list, if any, is not an ASCII digit. -/
def NoDigitHead (r : List Char) : Prop :=
  ∀ c, r.head? = some c → c.isDigit = false

instance {β : Type} (m : List (String × β)) : Decidable (MapWf m) :=
  inferInstanceAs (Decidable (List.Pairwise (fun a b : String × β => a.1 < b.1) m))

instance (l : List String) : Decidable (SetWf l) :=
  inferInstanceAs (Decidable (List.Pairwise (fun a b : String => a < b) l))

instance (s : String) : Decidable (strOk s) :=
  inferInstanceAs (Decidable ((utf8Str s).length < 2 ^ 64))

instance (t : DateTime) : Decidable (dtOk t) :=
  inferInstanceAs (Decidable (strOk (dtToString t)))

instance (o : Option String) : Decidable (optStrOk o) :=
  match o with
  | none => inferInstanceAs (Decidable True)
  | some s => inferInstanceAs (Decidable (strOk s))

instance (o : Option DateTime) : Decidable (optDtOk o) :=
  match o with
  | none => inferInstanceAs (Decidable True)
  | some t => inferInstanceAs (Decidable (dtOk t))

instance (tv : TagValue) : Decidable (tagValueWf tv) :=
  match tv with
  | .number n => inferInstanceAs (Decidable (-(2 ^ 63) ≤ n ∧ n < 2 ^ 63))
  | .bool _ => inferInstanceAs (Decidable True)
  | .url u => inferInstanceAs (Decidable (strOk u))
  | .simple s => inferInstanceAs (Decidable (strOk s))

instance {α : Type} (p : α → Prop) [DecidablePred p] (o : Option α) :
    Decidable (∀ v, o = some v → p v) :=
  match o with
  | none => isTrue (fun v hv => absurd hv (by simp))
  | some x =>
    if h : p x then isTrue (fun v hv => by cases hv; exact h)
    else isFalse (fun hall => h (hall x rfl))

instance (t : TagsMap) : Decidable (tagsWf t) :=
  inferInstanceAs (Decidable (MapWf t ∧ t.length < 2 ^ 64 ∧
    ∀ kv ∈ t, strOk kv.1 ∧ ∀ v, kv.2 = some v → tagValueWf v))

instance (fd : FileData) : Decidable (fileDataWf fd) :=
  inferInstanceAs (Decidable (tagsWf fd.tags ∧ optStrOk fd.comment
    ∧ dtOk fd.created ∧ optDtOk fd.updated))

instance (l : List String) : Decidable (collWf l) :=
  inferInstanceAs (Decidable (SetWf l ∧ l.length < 2 ^ 64 ∧ ∀ s ∈ l, strOk s))

instance (db : Db) : Decidable (dbWf db) :=
  inferInstanceAs (Decidable (MapWf db.files ∧ db.files.length < 2 ^ 64
    ∧ (∀ kv ∈ db.files, strOk kv.1 ∧ fileDataWf kv.2)
    ∧ MapWf db.collections ∧ db.collections.length < 2 ^ 64
    ∧ (∀ kv ∈ db.collections, strOk kv.1 ∧ collWf kv.2)
    ∧ tagsWf db.tags ∧ optStrOk db.comment ∧ dtOk db.created
    ∧ optDtOk db.updated))

/-- Example populated store exercising every serialized field: a file
entry carrying all four typed tag kinds plus an untyped tag, an escape
and a non-ASCII character in strings, a collection, store-level tags,
comment, and a negative created timestamp. -/
def dbC4 : Db :=
  { files := [("a.txt",
      { tags := [("note", some (.simple "hi\nthere")),
                 ("num", some (.number (-12))),
                 ("on", some (.bool true)),
                 ("plain", none),
                 ("ref", some (.url "https://example.com/a b"))],
        comment := some "first file",
        created := 100, updated := some 200 })],
    collections := [("favs", ["a.txt", "b.txt"])],
    tags := [("root", some (.simple "α"))],
    comment := some "store",
    created := -5, updated := none }

-- THEOREMS

theorem mem_FORMAT_LIST (f : Format) : f ∈ FORMAT_LIST := by
  cases f <;> simp [FORMAT_LIST]

theorem findFormatIn_eq_none_iff (fs : Fs) (d : List String) :
    findFormatIn fs d = none ↔
      ∀ f : Format, fs (d ++ [f.fileName]) ≠ some Meta.file := by
  unfold findFormatIn
  rw [List.findSome?_eq_none_iff]
  constructor
  · intro h f hfile
    have := h f (mem_FORMAT_LIST f)
    simp only [hfile] at this
    exact Option.noConfusion this
  · intro h f _
    cases hm : fs (d ++ [f.fileName]) with
    | none => simp [hm]
    | some m =>
      cases m with
      | dir => simp [hm]
      | file => exact absurd hm (h f)
      | other => simp [hm]

theorem findFormatIn_eq_some (fs : Fs) (d : List String)
    (pth : List String) (fmt : Format)
    (h : findFormatIn fs d = some (pth, fmt)) :
    pth = d ++ [fmt.fileName] ∧ fs pth = some Meta.file := by
  unfold findFormatIn at h
  obtain ⟨f, _, hf⟩ := List.exists_of_findSome?_eq_some h
  simp only at hf
  cases hm : fs (d ++ [f.fileName]) with
  | none => rw [hm] at hf; simp at hf
  | some m =>
    cases m with
    | file =>
      rw [hm] at hf
      simp only [Option.some.injEq, Prod.mk.injEq] at hf
      obtain ⟨h1, h2⟩ := hf
      subst h1 h2
      exact ⟨rfl, hm⟩
    | dir => rw [hm] at hf; simp at hf
    | other => rw [hm] at hf; simp at hf

/-- Claim C1 counterexample: at start directory `a`, the nearest ancestor
holds a `.fsm` marker directory with no recognized store file, yet the
locator does not return "no store found" — it returns the store file of
the farther ancestor. -/
theorem find_file_skips_empty_marker :
    fsC1 ["a", ".fsm"] = some Meta.dir ∧
    findFormatIn fsC1 ["a", ".fsm"] = none ∧
    find_file fsC1 ["a"] = some ([".fsm", "db.json"], Format.json) := by
  refine ⟨rfl, by decide, by decide⟩

/-- Claim C1 (corrected): the ancestor walk of `Context::find_file` does
not stop at the first marker directory.  It returns `none` exactly when
no ancestor's `.fsm` marker directory contains a recognized store file,
and any returned hit is a recognized store file inside some ancestor's
marker directory — a marker directory without a store file is skipped
and the search continues upward. -/
theorem find_file_characterization (fs : Fs) (p : List String) :
    (find_file fs p = none ↔
      ∀ anc ∈ ancestors p, fs (anc ++ [".fsm"]) = some Meta.dir →
        ∀ f : Format, fs (anc ++ [".fsm"] ++ [f.fileName]) ≠ some Meta.file)
    ∧ (∀ pth fmt, find_file fs p = some (pth, fmt) →
        ∃ anc ∈ ancestors p, fs (anc ++ [".fsm"]) = some Meta.dir ∧
          pth = anc ++ [".fsm"] ++ [fmt.fileName] ∧ fs pth = some Meta.file) := by
  constructor
  · unfold find_file
    rw [List.findSome?_eq_none_iff]
    constructor
    · intro h anc hanc hdir f hfile
      have := h anc hanc
      simp only [hdir] at this
      rw [findFormatIn_eq_none_iff] at this
      exact this f hfile
    · intro h anc hanc
      cases hm : fs (anc ++ [".fsm"]) with
      | none => simp [hm]
      | some m =>
        cases m with
        | dir =>
          simp only [hm]
          rw [findFormatIn_eq_none_iff]
          intro f
          exact h anc hanc hm f
        | file => simp [hm]
        | other => simp [hm]
  · intro pth fmt h
    unfold find_file at h
    obtain ⟨anc, hanc, hf⟩ := List.exists_of_findSome?_eq_some h
    simp only at hf
    cases hm : fs (anc ++ [".fsm"]) with
    | none => rw [hm] at hf; simp at hf
    | some m =>
      cases m with
      | dir =>
        rw [hm] at hf
        simp only at hf
        obtain ⟨h1, h2⟩ := findFormatIn_eq_some fs (anc ++ [".fsm"]) pth fmt hf
        exact ⟨anc, hanc, hm, h1, h2⟩
      | file => rw [hm] at hf; simp at hf
      | other => rw [hm] at hf; simp at hf

/-- Witness for `find_file_characterization` at the concrete filesystem
`fsC1`: the hit found while skipping the empty marker of `a` indeed lies
in an ancestor's marker directory. -/
theorem find_file_characterization_witness :
    ∃ anc ∈ ancestors ["a"], fsC1 (anc ++ [".fsm"]) = some Meta.dir ∧
      ([".fsm", "db.json"] : List String)
        = anc ++ [".fsm"] ++ [Format.json.fileName] ∧
      fsC1 [".fsm", "db.json"] = some Meta.file :=
  (find_file_characterization fsC1 ["a"]).2 [".fsm", "db.json"] Format.json
    (by decide)

theorem findSome?_const {α β : Type} {l : List α} {f : α → Option β} {b : β}
    (hall : ∀ x ∈ l, f x = none ∨ f x = some b)
    (hex : ∃ x ∈ l, f x = some b) :
    l.findSome? f = some b := by
  induction l with
  | nil => simp at hex
  | cons a t ih =>
    rw [List.findSome?_cons]
    rcases hall a (by simp) with h | h
    · rw [h]
      apply ih (fun x hx => hall x (by simp [hx]))
      obtain ⟨x, hx, hfx⟩ := hex
      rcases List.mem_cons.mp hx with rfl | hxt
      · rw [h] at hfx; exact Option.noConfusion hfx
      · exact ⟨x, hxt, hfx⟩
    · rw [h]

/-- Claim C3 counterexample: with a store file already present, `init_db`
prints "a db file already exists" and returns success (`Ok`), performing
no filesystem write — it does not return an error. -/
theorem init_db_existing_reports_ok :
    init_db fsC3 [] Format.json 0 = .ok ([], ["a db file already exists"])
    ∧ ∀ e, init_db fsC3 [] Format.json 0 ≠ .error e := by
  constructor
  · rfl
  · intro e h
    rw [show init_db fsC3 [] Format.json 0
        = .ok ([], ["a db file already exists"]) from rfl] at h
    exact Except.noConfusion h

/-- Claim C3 (corrected): when the marker directory already contains a
store file in any of the three formats (and no format's file name is
occupied by a non-file object), `init_db` reports that a db file already
exists and returns success without performing any filesystem write — in
particular the existing store file is not overwritten. -/
theorem init_db_existing_store (fs : FsN) (cwd : List String)
    (fmt : Format) (now : DateTime)
    (hdir : fs (cwd ++ [".fsm"]) = some Node.dir)
    (hok : ∀ f : Format, ∀ n, fs (cwd ++ [".fsm", f.fileName]) = some n →
      ∃ d, n = Node.file d)
    (hex : ∃ f : Format, ∃ d,
      fs (cwd ++ [".fsm", f.fileName]) = some (Node.file d)) :
    init_db fs cwd fmt now = .ok ([], ["a db file already exists"]) := by
  have hc : checkDbFiles fs (cwd ++ [".fsm"]) = some (.ok ()) := by
    unfold checkDbFiles
    apply findSome?_const
    · intro f _
      cases hm : fs (cwd ++ [".fsm", f.fileName]) with
      | none => left; simp [hm]
      | some n =>
        obtain ⟨d, rfl⟩ := hok f n hm
        right; simp [hm]
    · obtain ⟨f, d, hf⟩ := hex
      exact ⟨f, mem_FORMAT_LIST f, by simp [hf]⟩
  unfold init_db
  simp [hdir, hc]

/-- Witness for `init_db_existing_store` at the concrete filesystem
`fsC3`. -/
theorem init_db_existing_store_witness :
    init_db fsC3 [] Format.json 0 = .ok ([], ["a db file already exists"]) :=
  init_db_existing_store fsC3 [] Format.json 0 rfl
    (by
      intro f n h
      cases f with
      | jsonPretty =>
        rw [show fsC3 ([] ++ [".fsm", Format.jsonPretty.fileName])
            = none from rfl] at h
        exact Option.noConfusion h
      | json =>
        rw [show fsC3 ([] ++ [".fsm", Format.json.fileName])
            = some (Node.file (Db.default 0)) from rfl] at h
        exact ⟨Db.default 0, (Option.some.injEq _ _ ▸ h).symm⟩
      | binary =>
        rw [show fsC3 ([] ++ [".fsm", Format.binary.fileName])
            = none from rfl] at h
        exact Option.noConfusion h)
    ⟨Format.json, Db.default 0, rfl⟩

/-- Claim C2: evaluation of `rename_data` at the collision input.  With
entries under both `old.txt` and `new.txt`, the rename reports that the
renamed key already exists, yet the saved files map has lost the
`old.txt` entry — the operation is not atomic as the spec requires. -/
theorem rename_collision_loses_current :
    rename_data [] [] false (fun _ => true) filesC2
        ⟨true, ["old.txt"]⟩ ⟨true, ["new.txt"]⟩
      = .ok { files := [("new.txt", fdNew)],
              msgs := ["renamed already exists in db: new.txt"],
              saved := true }
    ∧ mapGet filesC2 "old.txt" = some fdOld
    ∧ mapGet [("new.txt", fdNew)] "old.txt" = none := by
  exact ⟨rfl, by decide, by decide⟩

/-- Claim C10: deleting a missing collection prints "collection not
found" and succeeds without saving, leaving the store untouched; deleting
an existing one removes exactly that collection, saves, and only after
the save prints the member count and keys (under `--files`). -/
theorem delete_coll_spec (db : Db) (name : String) (flag : Bool) :
    (mapGet db.collections name = none →
      delete_coll db name flag = (db, [Event.print "collection not found"]))
    ∧ (∀ files, mapGet db.collections name = some files →
        delete_coll db name flag =
          ({ db with collections := mapRemove db.collections name },
            Event.save ::
              (if flag then
                Event.print (toString files.length ++ " files") ::
                  files.map Event.print
              else []))) := by
  constructor
  · intro h
    unfold delete_coll
    rw [h]
  · intro files h
    unfold delete_coll
    rw [h]

/-- Witness for `delete_coll_spec` at the concrete store `dbC10`. -/
theorem delete_coll_spec_witness :
    delete_coll dbC10 "favs" true =
      ({ dbC10 with collections := mapRemove dbC10.collections "favs" },
        Event.save ::
          (if true then
            Event.print (toString (["a.txt", "b.txt"] : List String).length
                ++ " files") ::
              (["a.txt", "b.txt"] : List String).map Event.print
          else [])) :=
  (delete_coll_spec dbC10 "favs" true).2 ["a.txt", "b.txt"] (by decide)

theorem mapGet_mapInsert_self {β : Type} (m : List (String × β)) (k : String)
    (v : β) : mapGet (mapInsert m k v) k = some v := by
  induction m with
  | nil => simp [mapInsert, mapGet]
  | cons kv t ih =>
    obtain ⟨k', v'⟩ := kv
    unfold mapInsert
    by_cases h1 : k < k'
    · simp [h1, mapGet]
    · by_cases h2 : k = k'
      · simp [h1, h2, mapGet]
      · have hne : ¬ k' = k := fun h => h2 h.symm
        simp [h1, h2, mapGet, hne, ih]

theorem setStep_decomp (cwd root : List String) (args : SetArgs)
    (now : DateTime) (acc : Db × List String) (p : RPath) :
    setStep cwd root args now acc p
      = ((setStep cwd root args now (acc.1, []) p).1,
         acc.2 ++ (setStep cwd root args now (acc.1, []) p).2) := by
  unfold setStep
  cases h : from_root cwd root p with
  | error e => simp
  | ok v =>
    obtain ⟨full, entry⟩ := v
    cases hm : mapGet acc.1.files entry <;> simp [hm]

theorem setFold_decomp (cwd root : List String) (args : SetArgs)
    (now : DateTime) (l : List RPath) :
    ∀ (acc : Db × List String),
      l.foldl (setStep cwd root args now) acc
        = ((l.foldl (setStep cwd root args now) (acc.1, [])).1,
           acc.2 ++ (l.foldl (setStep cwd root args now) (acc.1, [])).2) := by
  induction l with
  | nil => intro acc; simp
  | cons p t ih =>
    intro acc
    rw [List.foldl_cons, List.foldl_cons]
    rw [setStep_decomp cwd root args now acc p]
    rw [setStep_decomp cwd root args now (acc.1, []) p]
    simp only [List.nil_append]
    rw [ih ((setStep cwd root args now (acc.1, []) p).1,
      acc.2 ++ (setStep cwd root args now (acc.1, []) p).2)]
    rw [ih ((setStep cwd root args now (acc.1, []) p).1,
      (setStep cwd root args now (acc.1, []) p).2)]
    simp

theorem setStep_updated (cwd root : List String) (args : SetArgs)
    (now : DateTime) (acc : Db × List String) (p : RPath) :
    (setStep cwd root args now acc p).1.updated = acc.1.updated := by
  unfold setStep
  cases h : from_root cwd root p with
  | error e => simp
  | ok v =>
    obtain ⟨full, entry⟩ := v
    cases hm : mapGet acc.1.files entry <;> simp [hm]

theorem setFold_updated (cwd root : List String) (args : SetArgs)
    (now : DateTime) (l : List RPath) :
    ∀ (acc : Db × List String),
      (l.foldl (setStep cwd root args now) acc).1.updated = acc.1.updated := by
  induction l with
  | nil => intro acc; simp
  | cons p t ih =>
    intro acc
    rw [List.foldl_cons, ih]
    exact setStep_updated cwd root args now acc p

/-- Claim C7 counterexample: a `--self` invocation that sets the store's
comment mutates the store's metadata but leaves the store's `updated`
timestamp untouched (`none` instead of the mutation time `7`). -/
theorem set_self_mutation_not_stamped :
    (set_data [] [] (Db.default 5) argsC7 7).1.comment = some "test"
    ∧ (set_data [] [] (Db.default 5) argsC7 7).1.updated = none :=
  ⟨rfl, rfl⟩

/-- Claim C7 (corrected): a set operation on a path whose file entry
exists rewrites that entry with `updated` stamped to the mutation time,
but the store's own `updated` timestamp is never stamped by `set_data` —
`--self` mutations of the store's tags or comment leave it unchanged. -/
theorem set_updated_stamping (cwd root : List String) (db : Db)
    (args : SetArgs) (now : DateTime) (p : RPath) (full : List String)
    (entry : String) (ex : FileData)
    (hres : from_root cwd root p = .ok (full, entry))
    (hfiles : args.files = [p])
    (hex : mapGet db.files entry = some ex) :
    (mapGet (set_data cwd root db args now).1.files entry
      = some { tags := update_tags args ex.tags,
               comment := applyComment args ex.comment,
               created := ex.created, updated := some now })
    ∧ (set_data cwd root db args now).1.updated = db.updated := by
  have hfi : (selfApply args db).files = db.files := by
    unfold selfApply; split <;> rfl
  have hup : (selfApply args db).updated = db.updated := by
    unfold selfApply; split <;> rfl
  constructor
  · unfold set_data
    rw [hfiles]
    simp only [List.foldl_cons, List.foldl_nil]
    unfold setStep
    rw [hres]
    simp only [hfi, hex]
    exact mapGet_mapInsert_self _ entry _
  · unfold set_data
    rw [setFold_updated]
    exact hup

/-- Witness for `set_updated_stamping`: setting a comment with `--self`
on a store holding an entry at `a.txt` stamps that entry but not the
store. -/
theorem set_updated_stamping_witness :
    (mapGet (set_data [] [] dbW7
        { argsC7 with files := [⟨true, ["a.txt"]⟩] } 7).1.files "a.txt"
      = some { tags := update_tags { argsC7 with files := [⟨true, ["a.txt"]⟩] } fdOld.tags,
               comment := applyComment { argsC7 with files := [⟨true, ["a.txt"]⟩] } fdOld.comment,
               created := fdOld.created, updated := some 7 })
    ∧ (set_data [] [] dbW7
        { argsC7 with files := [⟨true, ["a.txt"]⟩] } 7).1.updated
      = dbW7.updated :=
  set_updated_stamping [] [] dbW7 { argsC7 with files := [⟨true, ["a.txt"]⟩] }
    7 ⟨true, ["a.txt"]⟩ ["a.txt"] "a.txt" fdOld rfl rfl rfl

/-- Claim C9: with a set invocation that requests no tag or comment
change at all, an already-existing entry still gets its `updated`
timestamp overwritten with the current time, while an entry created by
the same operation is left with `updated = none`. -/
theorem set_noop_timestamp_behavior (cwd root : List String) (db : Db)
    (now : DateTime) (p : RPath) (full : List String) (entry : String)
    (hres : from_root cwd root p = .ok (full, entry)) :
    (∀ ex, mapGet db.files entry = some ex →
      mapGet (set_data cwd root db
          { argsNoop with files := [p] } now).1.files entry
        = some { ex with updated := some now })
    ∧ (mapGet db.files entry = none →
      mapGet (set_data cwd root db
          { argsNoop with files := [p] } now).1.files entry
        = some { tags := [], comment := none,
                 created := now, updated := none }) := by
  have hargs : ∀ t : TagsMap,
      update_tags { argsNoop with files := [p] } t = t := fun _ => rfl
  have hcomm : ∀ c : Option String,
      applyComment { argsNoop with files := [p] } c = c := fun _ => rfl
  have hself : selfApply { argsNoop with files := [p] } db = db := rfl
  constructor
  · intro ex hex
    unfold set_data
    simp only [List.foldl_cons, List.foldl_nil, hself]
    unfold setStep
    rw [hres]
    simp only [hex, hargs, hcomm]
    exact mapGet_mapInsert_self _ entry _
  · intro hnone
    unfold set_data
    simp only [List.foldl_cons, List.foldl_nil, hself]
    unfold setStep
    rw [hres]
    simp only [hnone, hargs, hcomm]
    exact mapGet_mapInsert_self _ entry _

/-- Witness for `set_noop_timestamp_behavior`: a no-op set stamps the
existing `a.txt` entry of `dbW7`, and creates `b.txt` in an empty store
with no `updated` timestamp. -/
theorem set_noop_timestamp_behavior_witness :
    (mapGet (set_data [] [] dbW7
        { argsNoop with files := [⟨true, ["a.txt"]⟩] } 9).1.files "a.txt"
      = some { fdOld with updated := some 9 })
    ∧ (mapGet (set_data [] [] (Db.default 0)
        { argsNoop with files := [⟨true, ["b.txt"]⟩] } 9).1.files "b.txt"
      = some { tags := [], comment := none, created := 9, updated := none }) :=
  ⟨(set_noop_timestamp_behavior [] [] dbW7 9 ⟨true, ["a.txt"]⟩
      ["a.txt"] "a.txt" rfl).1 fdOld rfl,
   (set_noop_timestamp_behavior [] [] (Db.default 0) 9 ⟨true, ["b.txt"]⟩
      ["b.txt"] "b.txt" rfl).2 rfl⟩

/-- Claim C5: a store-load failure aborts the set command, a store-save
failure aborts it after the in-memory mutation, while a per-path
resolution failure inside the batch only logs its message: the resulting
store is the one obtained by skipping the failing path, the error text is
among the printed messages, and the command completes successfully. -/
theorem set_per_path_failure_isolated (cwd root : List String) (db : Db)
    (args : SetArgs) (now : DateTime) (l₁ l₂ : List RPath) (p : RPath)
    (e : PathError) (he : from_root cwd root p = .error e) :
    (∀ err b, set_cmd (.error err) b cwd root args now = .error err)
    ∧ (set_cmd (.ok db) false cwd root args now = .error "save failed")
    ∧ ((set_data cwd root db { args with files := l₁ ++ p :: l₂ } now).1
        = (set_data cwd root db { args with files := l₁ ++ l₂ } now).1)
    ∧ (e.message
        ∈ (set_data cwd root db { args with files := l₁ ++ p :: l₂ } now).2)
    ∧ (set_cmd (.ok db) true cwd root { args with files := l₁ ++ p :: l₂ } now
        = .ok (set_data cwd root db { args with files := l₁ ++ p :: l₂ } now)) := by
  have hone : set_data cwd root db { args with files := l₁ ++ p :: l₂ } now
      = (l₁ ++ p :: l₂).foldl (setStep cwd root args now)
          (selfApply args db, []) := rfl
  have htwo : set_data cwd root db { args with files := l₁ ++ l₂ } now
      = (l₁ ++ l₂).foldl (setStep cwd root args now)
          (selfApply args db, []) := rfl
  have hstep : ∀ acc : Db × List String,
      setStep cwd root args now acc p = (acc.1, acc.2 ++ [e.message]) := by
    intro acc
    unfold setStep
    rw [he]
  refine ⟨fun err b => rfl, rfl, ?_, ?_, rfl⟩
  · rw [hone, htwo]
    rw [List.foldl_append, List.foldl_append, List.foldl_cons]
    rw [hstep]
    rw [setFold_decomp cwd root args now l₂
      ((List.foldl (setStep cwd root args now) (selfApply args db, []) l₁).1,
        (List.foldl (setStep cwd root args now) (selfApply args db, []) l₁).2
          ++ [e.message])]
    rw [setFold_decomp cwd root args now l₂
      (List.foldl (setStep cwd root args now) (selfApply args db, []) l₁)]
  · rw [hone]
    rw [List.foldl_append, List.foldl_cons]
    rw [hstep]
    rw [setFold_decomp cwd root args now l₂
      ((List.foldl (setStep cwd root args now) (selfApply args db, []) l₁).1,
        (List.foldl (setStep cwd root args now) (selfApply args db, []) l₁).2
          ++ [e.message])]
    simp

/-- Witness for `set_per_path_failure_isolated`: a path outside the
store root `r` is logged and skipped while the batch completes. -/
theorem set_per_path_failure_isolated_witness :
    ((set_data [] ["r"] (Db.default 0)
        { argsNoop with files := [] ++ (⟨true, ["x"]⟩ : RPath)
            :: [⟨true, ["r", "a.txt"]⟩] } 5).1
      = (set_data [] ["r"] (Db.default 0)
          { argsNoop with files := [] ++ [⟨true, ["r", "a.txt"]⟩] } 5).1)
    ∧ ((PathError.outsideRoot ["x"]).message
        ∈ (set_data [] ["r"] (Db.default 0)
            { argsNoop with files := [] ++ (⟨true, ["x"]⟩ : RPath)
                :: [⟨true, ["r", "a.txt"]⟩] } 5).2) :=
  ⟨(set_per_path_failure_isolated [] ["r"] (Db.default 0) argsNoop 5 []
      [⟨true, ["r", "a.txt"]⟩] ⟨true, ["x"]⟩ (.outsideRoot ["x"]) rfl).2.2.1,
   (set_per_path_failure_isolated [] ["r"] (Db.default 0) argsNoop 5 []
      [⟨true, ["r", "a.txt"]⟩] ⟨true, ["x"]⟩ (.outsideRoot ["x"]) rfl).2.2.2.1⟩

/-- Claim C8 counterexample: `parse_tag` (the untyped `-t` argument
parser) accepts the name `a b`, which contains whitespace — the `TagKey`
character validation is not applied to stored tag names. -/
theorem parse_tag_accepts_invalid_chars :
    parse_tag "a b" = .ok ("a b", none)
    ∧ rustIsWhitespace ' ' = true
    ∧ ' ' ∈ ("a b" : String).data := by
  exact ⟨rfl, rfl, by decide⟩

/-- Claim C8 (corrected): only `TagKey::from_str` — used for the
include/exclude filter arguments — enforces the character restrictions:
an accepted key keeps its input string and contains no control character,
no whitespace, and none of `\\ : , !`.  The tag-argument parsers
(`parse_tag` and the typed variants) check only non-emptiness around the
first colon, so stored `TagsMap` keys are not subject to the
restriction. -/
theorem tagKeyFromStr_excludes_invalid (s : String) (t : TagKey)
    (h : tagKeyFromStr s = .ok t) :
    t.inner = s ∧ ∀ c ∈ s.data,
      rustIsControl c = false ∧ rustIsWhitespace c = false
        ∧ c ∉ INVALID_CHARS := by
  unfold tagKeyFromStr at h
  by_cases hb : s.data.any
      (fun ch => rustIsControl ch ∨ rustIsWhitespace ch ∨ ch ∈ INVALID_CHARS)
  · rw [if_pos hb] at h
    exact Except.noConfusion h
  · rw [if_neg hb] at h
    injection h with h1
    constructor
    · rw [← h1]
    · intro c hc
      by_contra hcon
      apply hb
      rw [List.any_eq_true]
      refine ⟨c, hc, ?_⟩
      simp only [decide_eq_true_eq]
      simp only [not_and, Bool.not_eq_false, not_not] at hcon
      by_cases h2 : rustIsControl c = true
      · exact Or.inl h2
      · by_cases h3 : rustIsWhitespace c = true
        · exact Or.inr (Or.inl h3)
        · exact Or.inr (Or.inr (hcon
            (Bool.eq_false_iff.mpr h2) (Bool.eq_false_iff.mpr h3)))

/-- Witness for `tagKeyFromStr_excludes_invalid` on the accepted key
`color`. -/
theorem tagKeyFromStr_excludes_invalid_witness :
    (⟨"color"⟩ : TagKey).inner = "color" ∧ ∀ c ∈ ("color" : String).data,
      rustIsControl c = false ∧ rustIsWhitespace c = false
        ∧ c ∉ INVALID_CHARS :=
  tagKeyFromStr_excludes_invalid "color" ⟨"color"⟩ rfl

theorem linCmp_lt_iff {α : Type} [LinearOrder α] (a b : α) :
    linCmp a b = .lt ↔ a < b := by
  unfold linCmp compareOfLessAndEq
  split_ifs with h1 h2
  · simp [h1]
  · simp [h2, lt_irrefl]
  · simpa using h1

theorem linCmp_eq_iff {α : Type} [LinearOrder α] (a b : α) :
    linCmp a b = .eq ↔ a = b := by
  unfold linCmp compareOfLessAndEq
  split_ifs with h1 h2
  · constructor
    · intro h; exact absurd h (by decide)
    · intro h; exact absurd h1 (by simp [h])
  · simp [h2]
  · simpa using h2

theorem linCmp_gt_iff {α : Type} [LinearOrder α] (a b : α) :
    linCmp a b = .gt ↔ b < a := by
  unfold linCmp compareOfLessAndEq
  split_ifs with h1 h2
  · constructor
    · intro h; exact absurd h (by decide)
    · intro h; exact absurd (lt_trans h1 h) (lt_irrefl a)
  · constructor
    · intro h; exact absurd h (by decide)
    · intro h; exact absurd h (by simp [h2])
  · constructor
    · intro _
      rcases lt_trichotomy a b with h | h | h
      · exact absurd h h1
      · exact absurd h h2
      · exact h
    · intro _; rfl

theorem linCmp_swap {α : Type} [LinearOrder α] (a b : α) :
    (linCmp a b).swap = linCmp b a := by
  rcases lt_trichotomy a b with h | h | h
  · rw [(linCmp_lt_iff a b).mpr h, (linCmp_gt_iff b a).mpr h]
    rfl
  · rw [(linCmp_eq_iff a b).mpr h, (linCmp_eq_iff b a).mpr h.symm]
    rfl
  · rw [(linCmp_gt_iff a b).mpr h, (linCmp_lt_iff b a).mpr h]
    rfl

theorem critCmp_swap (c : SortBy) (a b : String × MetaView) :
    (critCmp c a b).swap = critCmp c b a := by
  cases c with
  | name => exact linCmp_swap a.1 b.1
  | date => exact linCmp_swap a.2.modified b.2.modified
  | created => exact linCmp_swap a.2.created b.2.created
  | updated =>
    unfold critCmp
    cases ha : a.2.updated <;> cases hb : b.2.updated <;>
      simp only
    · rfl
    · rfl
    · rfl
    · exact linCmp_swap _ _

theorem critCmp_eq_eq (c : SortBy) (a b d : String × MetaView)
    (h1 : critCmp c a b = .eq) (h2 : critCmp c b d = .eq) :
    critCmp c a d = .eq := by
  cases c with
  | name =>
    unfold critCmp at *
    rw [linCmp_eq_iff] at h1 h2 ⊢
    exact h1.trans h2
  | date =>
    unfold critCmp at *
    rw [linCmp_eq_iff] at h1 h2 ⊢
    exact h1.trans h2
  | created =>
    unfold critCmp at *
    rw [linCmp_eq_iff] at h1 h2 ⊢
    exact h1.trans h2
  | updated =>
    unfold critCmp at *
    cases ha : a.2.updated <;> cases hb : b.2.updated <;>
      cases hd : d.2.updated <;> simp_all [linCmp_eq_iff]

theorem critCmp_le_lt (c : SortBy) (a b d : String × MetaView)
    (h1 : critCmp c a b ≠ .gt) (h2 : critCmp c b d = .lt) :
    critCmp c a d = .lt := by
  have hkey : ∀ {α : Type} (_ : LinearOrder α) (x y z : α),
      linCmp x y ≠ .gt → linCmp y z = .lt → linCmp x z = .lt := by
    intro α _ x y z hxy hyz
    rw [linCmp_lt_iff] at hyz ⊢
    rcases lt_trichotomy x y with h | h | h
    · exact lt_trans h hyz
    · rw [h]; exact hyz
    · exact absurd ((linCmp_gt_iff x y).mpr h) hxy
  cases c with
  | name => exact hkey inferInstance a.1 b.1 d.1 h1 h2
  | date => exact hkey inferInstance _ _ _ h1 h2
  | created => exact hkey inferInstance _ _ _ h1 h2
  | updated =>
    unfold critCmp at *
    cases ha : a.2.updated <;> cases hb : b.2.updated <;>
      cases hd : d.2.updated <;> simp_all
    · exact hkey inferInstance _ _ _ h1 h2

theorem critCmp_lt_le (c : SortBy) (a b d : String × MetaView)
    (h1 : critCmp c a b = .lt) (h2 : critCmp c b d ≠ .gt) :
    critCmp c a d = .lt := by
  have hkey : ∀ {α : Type} (_ : LinearOrder α) (x y z : α),
      linCmp x y = .lt → linCmp y z ≠ .gt → linCmp x z = .lt := by
    intro α _ x y z hxy hyz
    rw [linCmp_lt_iff] at hxy ⊢
    rcases lt_trichotomy y z with h | h | h
    · exact lt_trans hxy h
    · rw [← h]; exact hxy
    · exact absurd ((linCmp_gt_iff y z).mpr h) hyz
  cases c with
  | name => exact hkey inferInstance a.1 b.1 d.1 h1 h2
  | date => exact hkey inferInstance _ _ _ h1 h2
  | created => exact hkey inferInstance _ _ _ h1 h2
  | updated =>
    unfold critCmp at *
    cases ha : a.2.updated <;> cases hb : b.2.updated <;>
      cases hd : d.2.updated <;> simp_all
    · exact hkey inferInstance _ _ _ h1 h2

theorem cmpEntry_swap (sb : List SortBy) (a b : String × MetaView) :
    (cmpEntry sb a b).swap = cmpEntry sb b a := by
  induction sb with
  | nil => rfl
  | cons c r ih =>
    unfold cmpEntry
    cases h : critCmp c a b with
    | lt =>
      have : critCmp c b a = .gt := by rw [← critCmp_swap, h]; rfl
      rw [this]
      rfl
    | gt =>
      have : critCmp c b a = .lt := by rw [← critCmp_swap, h]; rfl
      rw [this]
      rfl
    | eq =>
      have : critCmp c b a = .eq := by rw [← critCmp_swap, h]; rfl
      rw [this]
      exact ih

theorem cmpEntry_le_trans (sb : List SortBy) (a b d : String × MetaView)
    (h1 : cmpEntry sb a b ≠ .gt) (h2 : cmpEntry sb b d ≠ .gt) :
    cmpEntry sb a d ≠ .gt := by
  induction sb with
  | nil => intro h; exact Ordering.noConfusion h
  | cons c r ih =>
    unfold cmpEntry at h1 h2 ⊢
    cases hab : critCmp c a b with
    | gt => rw [hab] at h1; exact absurd rfl h1
    | lt =>
      rw [hab] at h1
      cases hbd : critCmp c b d with
      | gt => rw [hbd] at h2; exact absurd rfl h2
      | lt =>
        rw [critCmp_lt_le c a b d hab (by rw [hbd]; intro h; exact Ordering.noConfusion h)]
        intro h; exact Ordering.noConfusion h
      | eq =>
        rw [critCmp_lt_le c a b d hab (by rw [hbd]; intro h; exact Ordering.noConfusion h)]
        intro h; exact Ordering.noConfusion h
    | eq =>
      rw [hab] at h1
      cases hbd : critCmp c b d with
      | gt => rw [hbd] at h2; exact absurd rfl h2
      | lt =>
        rw [critCmp_le_lt c a b d (by rw [hab]; intro h; exact Ordering.noConfusion h) hbd]
        intro h; exact Ordering.noConfusion h
      | eq =>
        rw [hbd] at h2
        rw [critCmp_eq_eq c a b d hab hbd]
        exact ih h1 h2

theorem entryLe_iff (sb : List SortBy) (a b : String × MetaView) :
    entryLe sb a b ↔ cmpEntry sb a b ≠ .gt := Iff.rfl

theorem bsLoop_invariant (sb : List SortBy) (x : String × MetaView)
    (l : List (String × MetaView)) (hs : List.Pairwise (entryLe sb) l) :
    ∀ (fuel left right : Nat), left ≤ right → right ≤ l.length →
      right - left ≤ fuel →
      (∀ j (hj : j < l.length), j < left → entryLe sb (l[j]) x) →
      (∀ j (hj : j < l.length), right ≤ j → entryLe sb x (l[j])) →
      bsIdx (bsLoop (fun other => cmpEntry sb other x) l fuel left right)
          ≤ l.length
      ∧ (∀ j (hj : j < l.length),
          j < bsIdx (bsLoop (fun other => cmpEntry sb other x) l fuel left right) →
          entryLe sb (l[j]) x)
      ∧ (∀ j (hj : j < l.length),
          bsIdx (bsLoop (fun other => cmpEntry sb other x) l fuel left right) ≤ j →
          entryLe sb x (l[j])) := by
  have hpair := List.pairwise_iff_getElem.mp hs
  intro fuel
  induction fuel with
  | zero =>
    intro left right hlr hrlen hfuel hbefore hafter
    refine ⟨?_, ?_, ?_⟩
    · show left ≤ l.length
      omega
    · intro j hj hjl
      exact hbefore j hj hjl
    · intro j hj hjl
      have hjl2 : left ≤ j := hjl
      exact hafter j hj (by omega)
  | succ f ih =>
    intro left right hlr hrlen hfuel hbefore hafter
    by_cases hcmp : left < right
    · have hhalf : (right - left) / 2 < right - left :=
        Nat.div_lt_self (by omega) (by omega)
      have hmidlt : left + (right - left) / 2 < right := by omega
      have hmidlen : left + (right - left) / 2 < l.length := by omega
      have hget : l.getD (left + (right - left) / 2) default
          = l[left + (right - left) / 2] :=
        List.getD_eq_getElem l default hmidlen
      show bsIdx (bsLoop _ l (f + 1) left right) ≤ l.length ∧ _ ∧ _
      unfold bsLoop
      rw [if_pos hcmp]
      simp only [hget]
      cases hc : cmpEntry sb (l[left + (right - left) / 2]) x with
      | lt =>
        refine ih (left + (right - left) / 2 + 1) right (by omega) hrlen
          (by omega) ?_ hafter
        intro j hj hjl
        by_cases hje : j = left + (right - left) / 2
        · subst hje
          rw [entryLe_iff, hc]
          decide
        · by_cases hjlt : j < left
          · exact hbefore j hj hjlt
          · have hjm : j < left + (right - left) / 2 := by omega
            refine (entryLe_iff sb _ _).mpr
              (cmpEntry_le_trans sb _ _ _
                ((entryLe_iff sb _ _).mp
                  (hpair j (left + (right - left) / 2) hj hmidlen hjm))
                (by rw [hc]; decide))
      | gt =>
        refine ih left (left + (right - left) / 2) (by omega)
          (by omega) (by omega) hbefore ?_
        intro j hj hjl
        have hxmid : entryLe sb x (l[left + (right - left) / 2]) := by
          rw [entryLe_iff, ← cmpEntry_swap, hc]
          decide
        by_cases hje : j = left + (right - left) / 2
        · subst hje
          exact hxmid
        · have hjm : left + (right - left) / 2 < j := by omega
          refine (entryLe_iff sb _ _).mpr
            (cmpEntry_le_trans sb _ _ _
              ((entryLe_iff sb _ _).mp hxmid)
              ((entryLe_iff sb _ _).mp
                (hpair (left + (right - left) / 2) j hmidlen hj hjm)))
      | eq =>
        refine ⟨?_, ?_, ?_⟩
        · show left + (right - left) / 2 ≤ l.length
          omega
        · intro j hj hjl
          have hjm : j < left + (right - left) / 2 := hjl
          refine (entryLe_iff sb _ _).mpr
            (cmpEntry_le_trans sb _ _ _
              ((entryLe_iff sb _ _).mp
                (hpair j (left + (right - left) / 2) hj hmidlen hjm))
              (by rw [hc]; decide))
        · intro j hj hjl
          have hjm : left + (right - left) / 2 ≤ j := hjl
          have hxmid : entryLe sb x
              (l[left + (right - left) / 2]) := by
            rw [entryLe_iff, ← cmpEntry_swap, hc]
            decide
          by_cases hje : j = left + (right - left) / 2
          · subst hje
            exact hxmid
          · refine (entryLe_iff sb _ _).mpr
              (cmpEntry_le_trans sb _ _ _
                ((entryLe_iff sb _ _).mp hxmid)
                ((entryLe_iff sb _ _).mp
                  (hpair (left + (right - left) / 2) j hmidlen hj (by omega))))
    · show bsIdx (bsLoop _ l (f + 1) left right) ≤ l.length ∧ _ ∧ _
      unfold bsLoop
      rw [if_neg hcmp]
      refine ⟨?_, ?_, ?_⟩
      · show left ≤ l.length
        omega
      · intro j hj hjl
        exact hbefore j hj hjl
      · intro j hj hjl
        have hjl2 : left ≤ j := hjl
        exact hafter j hj (by omega)

theorem insertIdx_eq_take_drop {α : Type} (l : List α) (n : Nat) (a : α)
    (h : n ≤ l.length) :
    l.insertIdx n a = l.take n ++ a :: l.drop n := by
  induction l generalizing n with
  | nil =>
    have : n = 0 := by simpa using h
    subst this
    rfl
  | cons x t ih =>
    cases n with
    | zero => rfl
    | succ m =>
      rw [List.insertIdx_succ_cons, ih m (by simpa using h)]
      rfl

theorem sorted_insert_pairwise (sortBy : List SortBy) (key : String)
    (meta : MetaView) (l : List (String × MetaView))
    (hs : List.Pairwise (entryLe sortBy) l) :
    List.Pairwise (entryLe sortBy) (sorted_insert key meta l sortBy) := by
  obtain ⟨hlen, hbefore, hafter⟩ :=
    bsLoop_invariant sortBy (key, meta) l hs l.length 0 l.length
      (by omega) (le_refl _) (by omega)
      (by intro j hj hjl; omega)
      (by intro j hj hjl; omega)
  unfold sorted_insert binarySearchBy
  rw [insertIdx_eq_take_drop _ _ _ hlen]
  rw [List.pairwise_append]
  refine ⟨List.Pairwise.sublist (List.take_sublist _ _) hs, ?_, ?_⟩
  · rw [List.pairwise_cons]
    constructor
    · intro y hy
      obtain ⟨j, hj, hyj⟩ := List.mem_iff_getElem.mp hy
      rw [List.getElem_drop] at hyj
      subst hyj
      have hlt : bsIdx (bsLoop (fun other => cmpEntry sortBy other (key, meta))
          l l.length 0 l.length) + j < l.length := by
        have := List.length_drop (bsIdx (bsLoop
          (fun other => cmpEntry sortBy other (key, meta)) l l.length 0
            l.length)) l
        omega
      exact hafter _ hlt (by omega)
    · exact List.Pairwise.sublist (List.drop_sublist _ _) hs
  · intro a ha b hb
    obtain ⟨i, hi, hai⟩ := List.mem_iff_getElem.mp ha
    rw [List.getElem_take] at hai
    subst hai
    have hitake : i < bsIdx (bsLoop
        (fun other => cmpEntry sortBy other (key, meta)) l l.length 0
          l.length) := by
      have := List.length_take (bsIdx (bsLoop
        (fun other => cmpEntry sortBy other (key, meta)) l l.length 0
          l.length)) l
      omega
    have hil : i < l.length := by
      have := List.length_take_le (bsIdx (bsLoop
        (fun other => cmpEntry sortBy other (key, meta)) l l.length 0
          l.length)) l
      omega
    rcases List.mem_cons.mp hb with rfl | hb'
    · exact hbefore i hil hitake
    · obtain ⟨j, hj, hbj⟩ := List.mem_iff_getElem.mp hb'
      rw [List.getElem_drop] at hbj
      subst hbj
      have hjl : bsIdx (bsLoop (fun other => cmpEntry sortBy other (key, meta))
          l l.length 0 l.length) + j < l.length := by
        have := List.length_drop (bsIdx (bsLoop
          (fun other => cmpEntry sortBy other (key, meta)) l l.length 0
            l.length)) l
        omega
      exact (List.pairwise_iff_getElem.mp hs) i _ hil hjl (by omega)


/-- Claim C6: under the composite sort comparator, when the `Updated`
criterion compares two entries of which exactly one has an updated
timestamp, the entry without one orders after ("greater than") the entry
that has one, for all values of their created timestamps; and
`sorted_insert` keeps the result list ordered consistently with the
composite comparator. -/
theorem updated_sort_edge_case :
    (∀ (k₁ k₂ : String) (m₁ m₂ : MetaView), m₁.updated.isSome = true →
      m₂.updated = none →
      cmpEntry [SortBy.updated] (k₁, m₁) (k₂, m₂) = .lt
      ∧ cmpEntry [SortBy.updated] (k₂, m₂) (k₁, m₁) = .gt)
    ∧ (∀ (sortBy : List SortBy) (key : String) (meta : MetaView)
        (l : List (String × MetaView)), List.Pairwise (entryLe sortBy) l →
        List.Pairwise (entryLe sortBy) (sorted_insert key meta l sortBy)) := by
  constructor
  · intro k₁ k₂ m₁ m₂ h1 h2
    obtain ⟨t, ht⟩ := Option.isSome_iff_exists.mp h1
    constructor
    · simp [cmpEntry, critCmp, ht, h2]
    · simp [cmpEntry, critCmp, ht, h2]
  · intro sortBy key meta l hl
    exact sorted_insert_pairwise sortBy key meta l hl

/-- Witness for `updated_sort_edge_case` at concrete entries: the entry
without `updated` compares after the one with it even though its
`created` is smaller, and the insertion keeps the list sorted. -/
theorem updated_sort_edge_case_witness :
    (cmpEntry [SortBy.updated] ("a", ⟨5, some 1⟩) ("b", ⟨0, none⟩) = .lt
      ∧ cmpEntry [SortBy.updated] ("b", ⟨0, none⟩) ("a", ⟨5, some 1⟩) = .gt)
    ∧ List.Pairwise (entryLe [SortBy.updated])
        (sorted_insert "b" ⟨0, none⟩ [("a", ⟨5, some 1⟩)] [SortBy.updated]) :=
  ⟨updated_sort_edge_case.1 "a" "b" ⟨5, some 1⟩ ⟨0, none⟩ rfl rfl,
   updated_sort_edge_case.2 [SortBy.updated] "b" ⟨0, none⟩
     [("a", ⟨5, some 1⟩)] (by simp)⟩


theorem natToCharsAux_append (n : Nat) :
    ∀ (f1 f2 : Nat) (acc : List Char), n ≤ f1 → n ≤ f2 →
      natToCharsAux f1 n acc = natToCharsAux f2 n [] ++ acc := by
  induction n using Nat.strong_induction_on with
  | _ n ih =>
    intro f1 f2 acc h1 h2
    by_cases hn : n < 10
    · cases f1 with
      | zero =>
        cases f2 with
        | zero => simp [natToCharsAux]
        | succ g2 => simp [natToCharsAux, hn, Nat.mod_eq_of_lt hn]
      | succ g1 =>
        cases f2 with
        | zero => simp [natToCharsAux, hn, Nat.mod_eq_of_lt hn]
        | succ g2 => simp [natToCharsAux, hn]
    · have hdiv : n / 10 < n := Nat.div_lt_self (by omega) (by omega)
      cases f1 with
      | zero => omega
      | succ g1 =>
        cases f2 with
        | zero => omega
        | succ g2 =>
          simp only [natToCharsAux, if_neg hn]
          rw [ih (n / 10) hdiv g1 (n / 10)
            (Char.ofNat (48 + n % 10) :: acc) (by omega) (le_refl _)]
          rw [ih (n / 10) hdiv g2 (n / 10)
            [Char.ofNat (48 + n % 10)] (by omega) (le_refl _)]
          simp

theorem digit_char_facts : ∀ m, m < 10 →
    (Char.ofNat (48 + m)).isDigit = true
    ∧ (Char.ofNat (48 + m)).toNat = 48 + m := by decide

theorem digitsToNat_append_digit (ds : List Char) (c : Char) :
    digitsToNat (ds ++ [c]) = 10 * digitsToNat ds + (c.toNat - 48) := by
  unfold digitsToNat
  rw [List.foldl_append]
  rfl

theorem natToChars_spec (n : Nat) :
    (∀ c ∈ natToChars n, c.isDigit = true)
    ∧ digitsToNat (natToChars n) = n
    ∧ natToChars n ≠ [] := by
  induction n using Nat.strong_induction_on with
  | _ n ih =>
    by_cases hn : n < 10
    · have hchars : natToChars n = [Char.ofNat (48 + n)] := by
        unfold natToChars
        cases hcase : n with
        | zero => simp [natToCharsAux]
        | succ m => simp [natToCharsAux, hcase ▸ hn]
      rw [hchars]
      refine ⟨?_, ?_, by simp⟩
      · intro c hc
        rw [List.mem_singleton] at hc
        subst hc
        exact (digit_char_facts n hn).1
      · unfold digitsToNat
        simp [(digit_char_facts n hn).2]
    · have hdiv : n / 10 < n := Nat.div_lt_self (by omega) (by omega)
      have hsplit : natToChars n
          = natToChars (n / 10) ++ [Char.ofNat (48 + n % 10)] := by
        unfold natToChars
        cases hcase : n with
        | zero => omega
        | succ m =>
          show natToCharsAux (m + 1) (m + 1) [] = _
          rw [show natToCharsAux (m + 1) (m + 1) []
              = natToCharsAux m ((m + 1) / 10)
                [Char.ofNat (48 + (m + 1) % 10)] from by
            simp [natToCharsAux, show ¬ m + 1 < 10 by omega]]
          rw [natToCharsAux_append ((m + 1) / 10) m ((m + 1) / 10)
            [Char.ofNat (48 + (m + 1) % 10)] (by omega) (le_refl _)]
      obtain ⟨ihd, ihv, ihne⟩ := ih (n / 10) hdiv
      rw [hsplit]
      refine ⟨?_, ?_, by simp⟩
      · intro c hc
        rcases List.mem_append.mp hc with h | h
        · exact ihd c h
        · rw [List.mem_singleton] at h
          subst h
          exact (digit_char_facts (n % 10) (by omega)).1
      · rw [digitsToNat_append_digit, ihv,
          (digit_char_facts (n % 10) (by omega)).2]
        omega

theorem takeWhile_append_all {α : Type} (p : α → Bool) (l r : List α)
    (hl : ∀ c ∈ l, p c = true)
    (hr : ∀ c, r.head? = some c → p c = false) :
    (l ++ r).takeWhile p = l ∧ (l ++ r).dropWhile p = r := by
  induction l with
  | nil =>
    simp only [List.nil_append]
    cases r with
    | nil => simp
    | cons c t =>
      have := hr c rfl
      simp [List.takeWhile, List.dropWhile, this]
  | cons x t ih =>
    have hx := hl x (by simp)
    obtain ⟨iht, ihd⟩ := ih (fun c hc => hl c (by simp [hc]))
    simp [List.takeWhile, List.dropWhile, hx, iht, ihd]

theorem isDigit_ne_minus (c : Char) (h : c.isDigit = true) : ¬ c = '-' := by
  intro heq
  subst heq
  simp [Char.isDigit] at h

theorem parseNatNum_rt (n : Nat) (r : List Char)
    (hr : ∀ c, r.head? = some c → c.isDigit = false) :
    parseNatNum (natToChars n ++ r) = some (n, r) := by
  obtain ⟨hd, hv, hne⟩ := natToChars_spec n
  obtain ⟨ht, hdr⟩ := takeWhile_append_all Char.isDigit (natToChars n) r hd hr
  unfold parseNatNum
  simp only [ht, hdr]
  rw [if_neg (by simpa using hne)]
  rw [hv]

theorem parseNum_rt (i : Int) (r : List Char)
    (hr : ∀ c, r.head? = some c → c.isDigit = false) :
    parseNum (intToChars i ++ r) = some (i, r) := by
  unfold intToChars
  by_cases hi : i < 0
  · rw [if_pos hi]
    show parseNum ('-' :: (natToChars (-i).toNat ++ r)) = _
    simp only [parseNum, if_true]
    rw [parseNatNum_rt (-i).toNat r hr]
    simp only [Option.map]
    rw [show -(((-i).toNat : Nat) : Int) = i by omega]
  · rw [if_neg hi]
    obtain ⟨hd, _, hne⟩ := natToChars_spec i.toNat
    cases hch : natToChars i.toNat with
    | nil => exact absurd hch hne
    | cons c cs =>
      have hcd : c.isDigit = true := hd c (by rw [hch]; simp)
      have hcm : ¬ c = '-' := isDigit_ne_minus c hcd
      show parseNum (c :: (cs ++ r)) = _
      simp only [parseNum]
      rw [if_neg hcm]
      rw [show c :: (cs ++ r) = (c :: cs) ++ r from by simp]
      rw [← hch, parseNatNum_rt i.toNat r hr]
      simp only [Option.map]
      rw [show ((i.toNat : Nat) : Int) = i by omega]

theorem dtParse_rt (t : Int) : dtParse (dtToString t) = some t := by
  show dtParseChars (intToChars t) = some t
  unfold intToChars
  by_cases ht : t < 0
  · rw [if_pos ht]
    obtain ⟨hd, hv, hne⟩ := natToChars_spec (-t).toNat
    simp only [dtParseChars, if_true]
    rw [if_neg (by
      simp only [not_or]
      refine ⟨by simpa using hne, ?_⟩
      simp only [not_not, List.all_eq_true]
      exact fun c hc => hd c hc)]
    rw [hv, Int.toNat_of_nonneg (by omega : (0 : Int) ≤ -t)]
    simp
  · rw [if_neg ht]
    obtain ⟨hd, hv, hne⟩ := natToChars_spec t.toNat
    cases hch : natToChars t.toNat with
    | nil => exact absurd hch hne
    | cons c cs =>
      have hcd : c.isDigit = true := hd c (by rw [hch]; simp)
      have hcm : ¬ c = '-' := isDigit_ne_minus c hcd
      simp only [dtParseChars]
      rw [if_neg hcm]
      rw [if_neg (by
        simp only [not_not, List.all_eq_true]
        intro c2 hc2
        exact hd c2 (by rw [hch]; exact hc2))]
      rw [show digitsToNat (c :: cs) = t.toNat from by rw [← hch]; exact hv]
      rw [Int.toNat_of_nonneg (by omega : (0 : Int) ≤ t)]


theorem hexVal_hexDigit : ∀ m, m < 16 → hexVal (hexDigit m) = some m := by
  decide

theorem escapeStr_cons (c : Char) (cs : List Char) :
    escapeStr (c :: cs) = escapeChar c ++ escapeStr cs := rfl

theorem parseStr_quote (f : Nat) (r : List Char) :
    parseStrAux f ('"' :: r) = some ([], r) := by
  cases f <;> rfl

theorem parseStr_escq (f : Nat) (r : List Char) :
    parseStrAux (f + 1) ('\\' :: '"' :: r)
      = (parseStrAux f r).map (fun p => ('"' :: p.1, p.2)) := rfl

theorem parseStr_escb (f : Nat) (r : List Char) :
    parseStrAux (f + 1) ('\\' :: '\\' :: r)
      = (parseStrAux f r).map (fun p => ('\\' :: p.1, p.2)) := rfl

theorem parseStr_escbs (f : Nat) (r : List Char) :
    parseStrAux (f + 1) ('\\' :: 'b' :: r)
      = (parseStrAux f r).map (fun p => (Char.ofNat 8 :: p.1, p.2)) := rfl

theorem parseStr_esct (f : Nat) (r : List Char) :
    parseStrAux (f + 1) ('\\' :: 't' :: r)
      = (parseStrAux f r).map (fun p => ('\t' :: p.1, p.2)) := rfl

theorem parseStr_escn (f : Nat) (r : List Char) :
    parseStrAux (f + 1) ('\\' :: 'n' :: r)
      = (parseStrAux f r).map (fun p => ('\n' :: p.1, p.2)) := rfl

theorem parseStr_escf (f : Nat) (r : List Char) :
    parseStrAux (f + 1) ('\\' :: 'f' :: r)
      = (parseStrAux f r).map (fun p => (Char.ofNat 12 :: p.1, p.2)) := rfl

theorem parseStr_escr (f : Nat) (r : List Char) :
    parseStrAux (f + 1) ('\\' :: 'r' :: r)
      = (parseStrAux f r).map (fun p => (Char.ofNat 13 :: p.1, p.2)) := rfl

set_option maxHeartbeats 2000000 in
theorem parseStr_escu (f : Nat) (m : Nat) (hm : m < 32) (r : List Char) :
    parseStrAux (f + 1) ('\\' :: 'u' :: '0' :: '0'
        :: hexDigit (m / 16) :: hexDigit (m % 16) :: r)
      = (parseStrAux f r).map (fun p => (Char.ofNat m :: p.1, p.2)) := by
  interval_cases m <;> rfl

theorem parseStr_raw (f : Nat) (c : Char) (r : List Char) (h1 : ¬ c = '"')
    (h2 : ¬ c = '\\') (h3 : ¬ c.toNat < 32) :
    parseStrAux (f + 1) (c :: r)
      = (parseStrAux f r).map (fun p => (c :: p.1, p.2)) := by
  conv_lhs => rw [parseStrAux.eq_def]
  simp only
  rw [if_neg h1, if_neg h2, if_neg h3]

theorem parseStrAux_rt (cs : List Char) : ∀ (r : List Char) (fuel : Nat),
    cs.length ≤ fuel →
    parseStrAux fuel (escapeStr cs ++ '"' :: r) = some (cs, r) := by
  induction cs with
  | nil =>
    intro r fuel _
    exact parseStr_quote fuel r
  | cons c cs ih =>
    intro r fuel hf
    obtain ⟨f, rfl⟩ : ∃ f, fuel = f + 1 := ⟨fuel - 1, by
      rw [List.length_cons] at hf
      omega⟩
    have hlen : cs.length ≤ f := by
      rw [List.length_cons] at hf
      omega
    rw [escapeStr_cons]
    unfold escapeChar
    by_cases h1 : c = '"'
    · rw [if_pos h1]
      show parseStrAux (f + 1) ('\\' :: '"' :: (escapeStr cs ++ '"' :: r)) = _
      rw [parseStr_escq, ih r f hlen]
      simp only [Option.map]
      rw [h1]
    · rw [if_neg h1]
      by_cases h2 : c = '\\'
      · rw [if_pos h2]
        show parseStrAux (f + 1)
          ('\\' :: '\\' :: (escapeStr cs ++ '"' :: r)) = _
        rw [parseStr_escb, ih r f hlen]
        simp only [Option.map]
        rw [h2]
      · rw [if_neg h2]
        by_cases h3 : c.toNat = 8
        · rw [if_pos h3]
          show parseStrAux (f + 1)
            ('\\' :: 'b' :: (escapeStr cs ++ '"' :: r)) = _
          rw [parseStr_escbs, ih r f hlen]
          simp only [Option.map]
          rw [← h3, Char.ofNat_toNat]
        · rw [if_neg h3]
          by_cases h4 : c = '\t'
          · rw [if_pos h4]
            show parseStrAux (f + 1)
              ('\\' :: 't' :: (escapeStr cs ++ '"' :: r)) = _
            rw [parseStr_esct, ih r f hlen]
            simp only [Option.map]
            rw [h4]
          · rw [if_neg h4]
            by_cases h5 : c = '\n'
            · rw [if_pos h5]
              show parseStrAux (f + 1)
                ('\\' :: 'n' :: (escapeStr cs ++ '"' :: r)) = _
              rw [parseStr_escn, ih r f hlen]
              simp only [Option.map]
              rw [h5]
            · rw [if_neg h5]
              by_cases h6 : c.toNat = 12
              · rw [if_pos h6]
                show parseStrAux (f + 1)
                  ('\\' :: 'f' :: (escapeStr cs ++ '"' :: r)) = _
                rw [parseStr_escf, ih r f hlen]
                simp only [Option.map]
                rw [← h6, Char.ofNat_toNat]
              · rw [if_neg h6]
                by_cases h7 : c.toNat = 13
                · rw [if_pos h7]
                  show parseStrAux (f + 1)
                    ('\\' :: 'r' :: (escapeStr cs ++ '"' :: r)) = _
                  rw [parseStr_escr, ih r f hlen]
                  simp only [Option.map]
                  rw [← h7, Char.ofNat_toNat]
                · rw [if_neg h7]
                  by_cases h8 : c.toNat < 32
                  · rw [if_pos h8]
                    show parseStrAux (f + 1)
                      ('\\' :: 'u' :: '0' :: '0'
                        :: hexDigit (c.toNat / 16)
                        :: hexDigit (c.toNat % 16)
                        :: (escapeStr cs ++ '"' :: r)) = _
                    rw [parseStr_escu f c.toNat h8, ih r f hlen]
                    simp only [Option.map]
                    rw [Char.ofNat_toNat]
                  · rw [if_neg h8]
                    show parseStrAux (f + 1)
                      (c :: (escapeStr cs ++ '"' :: r)) = _
                    rw [parseStr_raw f c _ h1 h2 h8, ih r f hlen]
                    simp only [Option.map]


theorem nlIndent_ws (pretty : Bool) (d : Nat) : WsOnly (nlIndent pretty d) := by
  intro c hc
  unfold nlIndent at hc
  split at hc
  · rcases List.mem_cons.mp hc with rfl | hc2
    · decide
    · rw [List.eq_of_mem_replicate hc2]
      decide
  · exact absurd hc (by simp)

theorem sepSpace_ws (pretty : Bool) : WsOnly (sepSpace pretty) := by
  intro c hc
  unfold sepSpace at hc
  split at hc
  · rw [List.mem_singleton.mp hc]
    decide
  · exact absurd hc (by simp)

theorem skipWs_append_ws (w : List Char) (hw : WsOnly w) (r : List Char) :
    skipWs (w ++ r) = skipWs r := by
  induction w with
  | nil => rfl
  | cons c t ih =>
    have hstep : skipWs (c :: (t ++ r)) = skipWs (t ++ r) := by
      show (if isWsChar c then skipWs (t ++ r) else c :: (t ++ r)) = _
      rw [if_pos (hw c (by simp))]
    rw [List.cons_append, hstep]
    exact ih (fun x hx => hw x (by simp [hx]))

theorem skipWs_head (c : Char) (r : List Char) (hc : isWsChar c = false) :
    skipWs (c :: r) = c :: r := by
  unfold skipWs
  rw [if_neg (by simp [hc])]

theorem ws_not_digit (c : Char) (h : isWsChar c = true) : c.isDigit = false := by
  unfold isWsChar at h
  have h2 : c = ' ' ∨ c = Char.ofNat 10 ∨ c = Char.ofNat 9 ∨ c = Char.ofNat 13 := by
    simpa using h
  rcases h2 with rfl | rfl | rfl | rfl <;> decide

theorem digit_not_ws (c : Char) (h : c.isDigit = true) : isWsChar c = false := by
  cases hw : isWsChar c with
  | false => rfl
  | true => rw [ws_not_digit c hw] at h; exact Bool.noConfusion h

theorem noDigitHead_ws_cons (w : List Char) (hw : WsOnly w) (c0 : Char)
    (h0 : c0.isDigit = false) (rest : List Char) :
    NoDigitHead (w ++ c0 :: rest) := by
  intro c hc
  cases w with
  | nil =>
    simp only [List.nil_append, List.head?_cons, Option.some.injEq] at hc
    rw [← hc]
    exact h0
  | cons x t =>
    simp only [List.cons_append, List.head?_cons, Option.some.injEq] at hc
    rw [← hc]
    exact ws_not_digit x (hw x (by simp))

theorem intToChars_head (i : Int) : ∃ c t, intToChars i = c :: t
    ∧ (c.isDigit = true ∨ c = '-') := by
  unfold intToChars
  by_cases hi : i < 0
  · rw [if_pos hi]
    exact ⟨'-', natToChars (-i).toNat, rfl, Or.inr rfl⟩
  · rw [if_neg hi]
    obtain ⟨hd, _, hne⟩ := natToChars_spec i.toNat
    cases hch : natToChars i.toNat with
    | nil => exact absurd hch hne
    | cons c t =>
      exact ⟨c, t, rfl, Or.inl (hd c (by rw [hch]; simp))⟩

theorem renderJson_head (pretty : Bool) (d : Nat) (v : Json) :
    ∃ c t, renderJson pretty d v = c :: t ∧ isWsChar c = false
      ∧ ¬ c = ']' ∧ ¬ c = '}' := by
  cases v with
  | num n =>
    obtain ⟨c, t, hct, hc⟩ := intToChars_head n
    refine ⟨c, t, hct, ?_, ?_, ?_⟩
    · rcases hc with h | rfl
      · exact digit_not_ws c h
      · decide
    · rcases hc with h | rfl
      · intro he; subst he; exact absurd h (by decide)
      · decide
    · rcases hc with h | rfl
      · intro he; subst he; exact absurd h (by decide)
      · decide
  | bool b => cases b <;> exact ⟨_, _, rfl, by decide, by decide, by decide⟩
  | arr l => cases l <;> exact ⟨_, _, rfl, by decide, by decide, by decide⟩
  | obj l => cases l <;> exact ⟨_, _, rfl, by decide, by decide, by decide⟩
  | null => exact ⟨_, _, rfl, by decide, by decide, by decide⟩
  | str s => exact ⟨_, _, rfl, by decide, by decide, by decide⟩

theorem escapeChar_ne_nil (c : Char) : escapeChar c ≠ [] := by
  unfold escapeChar
  split_ifs <;> simp

theorem escapeStr_len_ge (cs : List Char) :
    cs.length ≤ (escapeStr cs).length := by
  induction cs with
  | nil => simp [escapeStr]
  | cons c t ih =>
    rw [escapeStr_cons, List.length_append, List.length_cons]
    have := List.length_pos.mpr (escapeChar_ne_nil c)
    omega


theorem wsOnly_nil : WsOnly [] := by
  intro c hc
  exact absurd hc (by simp)

theorem noDigitHead_cons (c0 : Char) (h : c0.isDigit = false) (r : List Char) :
    NoDigitHead (c0 :: r) := by
  intro c hc
  simp only [List.head?_cons, Option.some.injEq] at hc
  rw [← hc]
  exact h

theorem num_head_ne (c : Char) (hcd : c.isDigit = true ∨ c = '-') (X : Char)
    (hXd : X.isDigit = false) (hXm : ¬ X = '-') : ¬ c = X := by
  rcases hcd with h | rfl
  · intro he
    subst he
    rw [hXd] at h
    exact Bool.noConfusion h
  · intro he
    exact hXm he.symm

theorem jsonFuel_pos (v : Json) : 1 ≤ jsonFuel v := by
  cases v <;> simp [jsonFuel] <;> omega

theorem elemsFuel_pos (l : JsonList) : 1 ≤ elemsFuel l := by
  cases l <;> simp [elemsFuel] <;> omega

theorem fieldsFuel_pos (l : JsonFields) : 1 ≤ fieldsFuel l := by
  cases l <;> simp [fieldsFuel] <;> omega

theorem renderItems_head (pretty : Bool) (d : Nat) (v : Json) (vs : JsonList) :
    ∃ c t, renderItems pretty d (.cons v vs) = c :: t ∧ isWsChar c = false
      ∧ ¬ c = ']' ∧ ¬ c = '}' := by
  obtain ⟨c, t0, hct, hcw, hcb, hcc⟩ := renderJson_head pretty d v
  cases vs with
  | nil =>
    refine ⟨c, t0, ?_, hcw, hcb, hcc⟩
    rw [show renderItems pretty d (JsonList.cons v JsonList.nil)
          = renderJson pretty d v from rfl, hct]
  | cons w ws =>
    refine ⟨c, t0 ++ ',' :: (nlIndent pretty d
      ++ renderItems pretty d (.cons w ws)), ?_, hcw, hcb, hcc⟩
    show renderJson pretty d v
        ++ ',' :: (nlIndent pretty d ++ renderItems pretty d (.cons w ws)) = _
    rw [hct, List.cons_append]

theorem renderFields_head (pretty : Bool) (d : Nat) (k : String) (v : Json)
    (fs : JsonFields) :
    ∃ t, renderFields pretty d (.cons k v fs) = '"' :: t := by
  cases fs with
  | nil =>
    refine ⟨escapeStr k.data ++ ('"' :: (':' :: (sepSpace pretty
      ++ renderJson pretty d v))), ?_⟩
    show renderStr k ++ ':' :: (sepSpace pretty ++ renderJson pretty d v) = _
    simp [renderStr, List.append_assoc]
  | cons k2 v2 fs2 =>
    refine ⟨escapeStr k.data ++ ('"' :: (':' :: (sepSpace pretty
      ++ (renderJson pretty d v ++ (',' :: (nlIndent pretty d
        ++ renderFields pretty d (.cons k2 v2 fs2))))))), ?_⟩
    show renderStr k ++ ':' :: (sepSpace pretty ++ renderJson pretty d v)
        ++ ',' :: (nlIndent pretty d ++ renderFields pretty d (.cons k2 v2 fs2)) = _
    simp [renderStr, List.append_assoc]

mutual

/-- Parsing the rendered form of a JSON value (after any leading
whitespace) returns the value and leaves the trailer untouched, provided
the trailer does not begin with a digit. -/
theorem parseVal_rt (pretty : Bool) : ∀ (d : Nat) (v : Json) (w0 rest : List Char)
    (f : Nat), WsOnly w0 → jsonFuel v ≤ f → NoDigitHead rest →
    parseVal f (w0 ++ (renderJson pretty d v ++ rest)) = some (v, rest)
  | d, .null, w0, rest, f, hw0, hf, _ => by
    cases f with
    | zero => exact absurd hf (by decide)
    | succ f =>
      have hskip : skipWs (w0 ++ (renderJson pretty d .null ++ rest))
          = 'n' :: 'u' :: 'l' :: 'l' :: rest := by
        rw [skipWs_append_ws w0 hw0,
            show renderJson pretty d Json.null ++ rest
              = 'n' :: 'u' :: 'l' :: 'l' :: rest from rfl]
        exact skipWs_head _ _ (by decide)
      simp only [parseVal, hskip]
  | d, .bool true, w0, rest, f, hw0, hf, _ => by
    cases f with
    | zero => exact absurd hf (by decide)
    | succ f =>
      have hskip : skipWs (w0 ++ (renderJson pretty d (.bool true) ++ rest))
          = 't' :: 'r' :: 'u' :: 'e' :: rest := by
        rw [skipWs_append_ws w0 hw0,
            show renderJson pretty d (Json.bool true) ++ rest
              = 't' :: 'r' :: 'u' :: 'e' :: rest from rfl]
        exact skipWs_head _ _ (by decide)
      simp only [parseVal, hskip]
  | d, .bool false, w0, rest, f, hw0, hf, _ => by
    cases f with
    | zero => exact absurd hf (by decide)
    | succ f =>
      have hskip : skipWs (w0 ++ (renderJson pretty d (.bool false) ++ rest))
          = 'f' :: 'a' :: 'l' :: 's' :: 'e' :: rest := by
        rw [skipWs_append_ws w0 hw0,
            show renderJson pretty d (Json.bool false) ++ rest
              = 'f' :: 'a' :: 'l' :: 's' :: 'e' :: rest from rfl]
        exact skipWs_head _ _ (by decide)
      simp only [parseVal, hskip]
  | d, .num n, w0, rest, f, hw0, hf, hr => by
    cases f with
    | zero => exact absurd hf (by have := jsonFuel_pos (Json.num n); omega)
    | succ f =>
      obtain ⟨c, t, hct, hcd⟩ := intToChars_head n
      have hcw : isWsChar c = false := by
        rcases hcd with h | rfl
        · exact digit_not_ws c h
        · decide
      have hskip : skipWs (w0 ++ (renderJson pretty d (.num n) ++ rest))
          = c :: (t ++ rest) := by
        rw [skipWs_append_ws w0 hw0,
            show renderJson pretty d (Json.num n) = intToChars n from rfl,
            hct, List.cons_append]
        exact skipWs_head _ _ hcw
      have hnum : parseNum (c :: (t ++ rest)) = some (n, rest) := by
        rw [← List.cons_append, ← hct]
        exact parseNum_rt n rest (fun c2 hc2 => hr c2 hc2)
      simp only [parseVal]
      rw [hskip]
      split
      · next x r heq =>
        exact absurd (List.cons_eq_cons.mp heq).1
          (num_head_ne c hcd 'n' (by decide) (by decide))
      · next x r heq =>
        exact absurd (List.cons_eq_cons.mp heq).1
          (num_head_ne c hcd 't' (by decide) (by decide))
      · next x r heq =>
        exact absurd (List.cons_eq_cons.mp heq).1
          (num_head_ne c hcd 'f' (by decide) (by decide))
      · next x r heq =>
        exact absurd (List.cons_eq_cons.mp heq).1
          (num_head_ne c hcd '"' (by decide) (by decide))
      · next x r heq =>
        exact absurd (List.cons_eq_cons.mp heq).1
          (num_head_ne c hcd '[' (by decide) (by decide))
      · next x r heq =>
        exact absurd (List.cons_eq_cons.mp heq).1
          (num_head_ne c hcd '{' (by decide) (by decide))
      · next =>
        rw [hnum]
  | d, .str s, w0, rest, f, hw0, hf, _ => by
    cases f with
    | zero => exact absurd hf (by have := jsonFuel_pos (Json.str s); omega)
    | succ f =>
      have hrender : renderJson pretty d (Json.str s) ++ rest
          = '"' :: (escapeStr s.data ++ ('"' :: rest)) := by
        show ('"' :: (escapeStr s.data ++ ['"'])) ++ rest = _
        simp [List.append_assoc]
      have hskip : skipWs (w0 ++ (renderJson pretty d (.str s) ++ rest))
          = '"' :: (escapeStr s.data ++ ('"' :: rest)) := by
        rw [skipWs_append_ws w0 hw0, hrender]
        exact skipWs_head _ _ (by decide)
      have hstr : parseStrAux (escapeStr s.data ++ ('"' :: rest)).length
          (escapeStr s.data ++ ('"' :: rest)) = some (s.data, rest) := by
        apply parseStrAux_rt
        rw [List.length_append]
        have := escapeStr_len_ge s.data
        omega
      simp only [parseVal]
      rw [hskip]
      split
      · next x r heq => exact absurd (List.cons_eq_cons.mp heq).1 (by decide)
      · next x r heq => exact absurd (List.cons_eq_cons.mp heq).1 (by decide)
      · next x r heq => exact absurd (List.cons_eq_cons.mp heq).1 (by decide)
      · next x r heq =>
        obtain ⟨-, h2⟩ := List.cons_eq_cons.mp heq
        subst h2
        rw [hstr]
      · next x r heq => exact absurd (List.cons_eq_cons.mp heq).1 (by decide)
      · next x r heq => exact absurd (List.cons_eq_cons.mp heq).1 (by decide)
      · next x h1 h2 h3 h4 h5 h6 => exact absurd rfl (h4 _)
  | d, .arr .nil, w0, rest, f, hw0, hf, _ => by
    cases f with
    | zero => exact absurd hf (by decide)
    | succ f =>
      have hskip : skipWs (w0 ++ (renderJson pretty d (.arr .nil) ++ rest))
          = '[' :: (']' :: rest) := by
        rw [skipWs_append_ws w0 hw0,
            show renderJson pretty d (Json.arr JsonList.nil) ++ rest
              = '[' :: (']' :: rest) from rfl]
        exact skipWs_head _ _ (by decide)
      simp only [parseVal]
      rw [hskip]
      split
      · next x r heq => exact absurd (List.cons_eq_cons.mp heq).1 (by decide)
      · next x r heq => exact absurd (List.cons_eq_cons.mp heq).1 (by decide)
      · next x r heq => exact absurd (List.cons_eq_cons.mp heq).1 (by decide)
      · next x r heq => exact absurd (List.cons_eq_cons.mp heq).1 (by decide)
      · next x r heq =>
        obtain ⟨-, h2⟩ := List.cons_eq_cons.mp heq
        subst h2
        rw [skipWs_head _ _ (by decide)]
        rfl
      · next x r heq => exact absurd (List.cons_eq_cons.mp heq).1 (by decide)
      · next x h1 h2 h3 h4 h5 h6 => exact absurd rfl (h5 _)
  | d, .arr (.cons v vs), w0, rest, f, hw0, hf, _ => by
    cases f with
    | zero =>
      exact absurd hf (by have := jsonFuel_pos (Json.arr (.cons v vs)); omega)
    | succ f =>
      obtain ⟨c, t, hct, hcw, hcb, _⟩ := renderItems_head pretty (d+1) v vs
      have hrender : renderJson pretty d (Json.arr (.cons v vs)) ++ rest
          = '[' :: (nlIndent pretty (d+1) ++ (renderItems pretty (d+1) (.cons v vs)
              ++ (nlIndent pretty d ++ (']' :: rest)))) := by
        show ('[' :: (nlIndent pretty (d+1) ++ renderItems pretty (d+1) (.cons v vs)
            ++ nlIndent pretty d ++ [']'])) ++ rest = _
        simp [List.append_assoc]
      have hskip : skipWs (w0 ++ (renderJson pretty d (.arr (.cons v vs)) ++ rest))
          = '[' :: (nlIndent pretty (d+1) ++ (renderItems pretty (d+1) (.cons v vs)
              ++ (nlIndent pretty d ++ (']' :: rest)))) := by
        rw [skipWs_append_ws w0 hw0, hrender]
        exact skipWs_head _ _ (by decide)
      have hinner : skipWs (nlIndent pretty (d+1)
            ++ (renderItems pretty (d+1) (.cons v vs)
              ++ (nlIndent pretty d ++ (']' :: rest))))
          = c :: (t ++ (nlIndent pretty d ++ (']' :: rest))) := by
        rw [skipWs_append_ws _ (nlIndent_ws pretty (d+1)), hct, List.cons_append]
        exact skipWs_head _ _ hcw
      have hfl : elemsFuel (JsonList.cons v vs) ≤ f := by
        simp only [jsonFuel] at hf
        omega
      have helems : parseElems f (c :: (t ++ (nlIndent pretty d ++ (']' :: rest))))
          = some (JsonList.cons v vs, rest) := by
        rw [← List.cons_append, ← hct]
        have h := parseElems_rt pretty (d+1) (JsonList.cons v vs) []
          (nlIndent pretty d) rest f wsOnly_nil (nlIndent_ws pretty d)
          (by simp) hfl
        simpa using h
      simp only [parseVal]
      rw [hskip]
      split
      · next x r heq => exact absurd (List.cons_eq_cons.mp heq).1 (by decide)
      · next x r heq => exact absurd (List.cons_eq_cons.mp heq).1 (by decide)
      · next x r heq => exact absurd (List.cons_eq_cons.mp heq).1 (by decide)
      · next x r heq => exact absurd (List.cons_eq_cons.mp heq).1 (by decide)
      · next x r heq =>
        obtain ⟨-, h2⟩ := List.cons_eq_cons.mp heq
        subst h2
        rw [hinner]
        split
        · next x2 heq2 => exact absurd (List.cons_eq_cons.mp heq2).1 hcb
        · next => rw [helems]
      · next x r heq => exact absurd (List.cons_eq_cons.mp heq).1 (by decide)
      · next x h1 h2 h3 h4 h5 h6 => exact absurd rfl (h5 _)
  | d, .obj .nil, w0, rest, f, hw0, hf, _ => by
    cases f with
    | zero => exact absurd hf (by decide)
    | succ f =>
      have hskip : skipWs (w0 ++ (renderJson pretty d (.obj .nil) ++ rest))
          = '{' :: ('}' :: rest) := by
        rw [skipWs_append_ws w0 hw0,
            show renderJson pretty d (Json.obj JsonFields.nil) ++ rest
              = '{' :: ('}' :: rest) from rfl]
        exact skipWs_head _ _ (by decide)
      simp only [parseVal]
      rw [hskip]
      split
      · next x r heq => exact absurd (List.cons_eq_cons.mp heq).1 (by decide)
      · next x r heq => exact absurd (List.cons_eq_cons.mp heq).1 (by decide)
      · next x r heq => exact absurd (List.cons_eq_cons.mp heq).1 (by decide)
      · next x r heq => exact absurd (List.cons_eq_cons.mp heq).1 (by decide)
      · next x r heq => exact absurd (List.cons_eq_cons.mp heq).1 (by decide)
      · next x r heq =>
        obtain ⟨-, h2⟩ := List.cons_eq_cons.mp heq
        subst h2
        rw [skipWs_head _ _ (by decide)]
        rfl
      · next x h1 h2 h3 h4 h5 h6 => exact absurd rfl (h6 _)
  | d, .obj (.cons k v fs), w0, rest, f, hw0, hf, _ => by
    cases f with
    | zero =>
      exact absurd hf (by have := jsonFuel_pos (Json.obj (.cons k v fs)); omega)
    | succ f =>
      obtain ⟨tk, hkt⟩ := renderFields_head pretty (d+1) k v fs
      have hrender : renderJson pretty d (Json.obj (.cons k v fs)) ++ rest
          = '{' :: (nlIndent pretty (d+1) ++ (renderFields pretty (d+1) (.cons k v fs)
              ++ (nlIndent pretty d ++ ('}' :: rest)))) := by
        show ('{' :: (nlIndent pretty (d+1) ++ renderFields pretty (d+1) (.cons k v fs)
            ++ nlIndent pretty d ++ ['}'])) ++ rest = _
        simp [List.append_assoc]
      have hskip : skipWs (w0 ++ (renderJson pretty d (.obj (.cons k v fs)) ++ rest))
          = '{' :: (nlIndent pretty (d+1) ++ (renderFields pretty (d+1) (.cons k v fs)
              ++ (nlIndent pretty d ++ ('}' :: rest)))) := by
        rw [skipWs_append_ws w0 hw0, hrender]
        exact skipWs_head _ _ (by decide)
      have hinner : skipWs (nlIndent pretty (d+1)
            ++ (renderFields pretty (d+1) (.cons k v fs)
              ++ (nlIndent pretty d ++ ('}' :: rest))))
          = '"' :: (tk ++ (nlIndent pretty d ++ ('}' :: rest))) := by
        rw [skipWs_append_ws _ (nlIndent_ws pretty (d+1)), hkt, List.cons_append]
        exact skipWs_head _ _ (by decide)
      have hfl : fieldsFuel (JsonFields.cons k v fs) ≤ f := by
        simp only [jsonFuel] at hf
        omega
      have hflds : parseFields f ('"' :: (tk ++ (nlIndent pretty d ++ ('}' :: rest))))
          = some (JsonFields.cons k v fs, rest) := by
        rw [← List.cons_append, ← hkt]
        have h := parseFields_rt pretty (d+1) (JsonFields.cons k v fs) []
          (nlIndent pretty d) rest f wsOnly_nil (nlIndent_ws pretty d)
          (by simp) hfl
        simpa using h
      simp only [parseVal]
      rw [hskip]
      split
      · next x r heq => exact absurd (List.cons_eq_cons.mp heq).1 (by decide)
      · next x r heq => exact absurd (List.cons_eq_cons.mp heq).1 (by decide)
      · next x r heq => exact absurd (List.cons_eq_cons.mp heq).1 (by decide)
      · next x r heq => exact absurd (List.cons_eq_cons.mp heq).1 (by decide)
      · next x r heq => exact absurd (List.cons_eq_cons.mp heq).1 (by decide)
      · next x r heq =>
        obtain ⟨-, h2⟩ := List.cons_eq_cons.mp heq
        subst h2
        rw [hinner]
        split
        · next x2 heq2 => exact absurd (List.cons_eq_cons.mp heq2).1 (by decide)
        · next => rw [hflds]
      · next x h1 h2 h3 h4 h5 h6 => exact absurd rfl (h6 _)

/-- Parsing the rendered comma-separated items of a nonempty array,
followed by whitespace and the closing bracket, returns the items. -/
theorem parseElems_rt (pretty : Bool) : ∀ (d : Nat) (l : JsonList)
    (w0 w1 rest : List Char) (f : Nat), WsOnly w0 → WsOnly w1 → l ≠ .nil →
    elemsFuel l ≤ f →
    parseElems f (w0 ++ (renderItems pretty d l ++ (w1 ++ (']' :: rest))))
      = some (l, rest)
  | _, .nil, _, _, _, _, _, _, hl, _ => absurd rfl hl
  | d, .cons v .nil, w0, w1, rest, f, hw0, hw1, _, hf => by
    cases f with
    | zero =>
      exact absurd hf (by have := elemsFuel_pos (JsonList.cons v JsonList.nil); omega)
    | succ f =>
      have hfv : jsonFuel v ≤ f := by
        simp only [elemsFuel] at hf
        omega
      have hval : parseVal f (w0 ++ (renderJson pretty d v ++ (w1 ++ (']' :: rest))))
          = some (v, w1 ++ (']' :: rest)) :=
        parseVal_rt pretty d v w0 (w1 ++ (']' :: rest)) f hw0 hfv
          (noDigitHead_ws_cons w1 hw1 ']' (by decide) rest)
      have hsk2 : skipWs (w1 ++ (']' :: rest)) = ']' :: rest := by
        rw [skipWs_append_ws w1 hw1]
        exact skipWs_head _ _ (by decide)
      simp only [parseElems]
      rw [show renderItems pretty d (JsonList.cons v JsonList.nil)
            = renderJson pretty d v from rfl, hval]
      simp only [hsk2]
  | d, .cons v (.cons w ws), w0, w1, rest, f, hw0, hw1, _, hf => by
    cases f with
    | zero =>
      exact absurd hf
        (by have := elemsFuel_pos (JsonList.cons v (JsonList.cons w ws)); omega)
    | succ f =>
      have hfv : jsonFuel v ≤ f := by
        simp only [elemsFuel] at hf
        omega
      have hfl : elemsFuel (JsonList.cons w ws) ≤ f := by
        simp only [elemsFuel] at hf ⊢
        omega
      have hshape : renderItems pretty d (JsonList.cons v (JsonList.cons w ws))
            ++ (w1 ++ (']' :: rest))
          = renderJson pretty d v ++ (',' :: (nlIndent pretty d
              ++ (renderItems pretty d (JsonList.cons w ws)
                ++ (w1 ++ (']' :: rest))))) := by
        show (renderJson pretty d v ++ ',' :: (nlIndent pretty d
            ++ renderItems pretty d (JsonList.cons w ws))) ++ (w1 ++ (']' :: rest)) = _
        simp [List.append_assoc]
      have hval : parseVal f (w0 ++ (renderJson pretty d v ++ (',' :: (nlIndent pretty d
            ++ (renderItems pretty d (JsonList.cons w ws) ++ (w1 ++ (']' :: rest)))))))
          = some (v, ',' :: (nlIndent pretty d
              ++ (renderItems pretty d (JsonList.cons w ws) ++ (w1 ++ (']' :: rest))))) :=
        parseVal_rt pretty d v w0 _ f hw0 hfv (noDigitHead_cons ',' (by decide) _)
      have hsk2 : skipWs (',' :: (nlIndent pretty d
            ++ (renderItems pretty d (JsonList.cons w ws) ++ (w1 ++ (']' :: rest)))))
          = ',' :: (nlIndent pretty d
              ++ (renderItems pretty d (JsonList.cons w ws) ++ (w1 ++ (']' :: rest)))) :=
        skipWs_head _ _ (by decide)
      have htail : parseElems f (nlIndent pretty d
            ++ (renderItems pretty d (JsonList.cons w ws) ++ (w1 ++ (']' :: rest))))
          = some (JsonList.cons w ws, rest) :=
        parseElems_rt pretty d (JsonList.cons w ws) (nlIndent pretty d) w1 rest f
          (nlIndent_ws pretty d) hw1 (by simp) hfl
      simp only [parseElems]
      rw [hshape, hval]
      simp only [hsk2, htail]

/-- Parsing the rendered comma-separated fields of a nonempty object,
followed by whitespace and the closing brace, returns the fields. -/
theorem parseFields_rt (pretty : Bool) : ∀ (d : Nat) (l : JsonFields)
    (w0 w1 rest : List Char) (f : Nat), WsOnly w0 → WsOnly w1 → l ≠ .nil →
    fieldsFuel l ≤ f →
    parseFields f (w0 ++ (renderFields pretty d l ++ (w1 ++ ('}' :: rest))))
      = some (l, rest)
  | _, .nil, _, _, _, _, _, _, hl, _ => absurd rfl hl
  | d, .cons k v .nil, w0, w1, rest, f, hw0, hw1, _, hf => by
    cases f with
    | zero =>
      exact absurd hf
        (by have := fieldsFuel_pos (JsonFields.cons k v JsonFields.nil); omega)
    | succ f =>
      have hfv : jsonFuel v ≤ f := by
        simp only [fieldsFuel] at hf
        omega
      have hshape : renderFields pretty d (JsonFields.cons k v JsonFields.nil)
            ++ (w1 ++ ('}' :: rest))
          = '"' :: (escapeStr k.data ++ ('"' :: (':' :: (sepSpace pretty
              ++ (renderJson pretty d v ++ (w1 ++ ('}' :: rest))))))) := by
        show (renderStr k ++ ':' :: (sepSpace pretty ++ renderJson pretty d v))
            ++ (w1 ++ ('}' :: rest)) = _
        simp [renderStr, List.append_assoc]
      have hkey : parseStrAux (escapeStr k.data ++ ('"' :: (':' :: (sepSpace pretty
            ++ (renderJson pretty d v ++ (w1 ++ ('}' :: rest))))))).length
          (escapeStr k.data ++ ('"' :: (':' :: (sepSpace pretty
            ++ (renderJson pretty d v ++ (w1 ++ ('}' :: rest)))))))
          = some (k.data, ':' :: (sepSpace pretty
              ++ (renderJson pretty d v ++ (w1 ++ ('}' :: rest))))) := by
        apply parseStrAux_rt
        rw [List.length_append]
        have := escapeStr_len_ge k.data
        omega
      have hval : parseVal f (sepSpace pretty
            ++ (renderJson pretty d v ++ (w1 ++ ('}' :: rest))))
          = some (v, w1 ++ ('}' :: rest)) :=
        parseVal_rt pretty d v (sepSpace pretty) _ f (sepSpace_ws pretty) hfv
          (noDigitHead_ws_cons w1 hw1 '}' (by decide) rest)
      have hsk2 : skipWs (':' :: (sepSpace pretty
            ++ (renderJson pretty d v ++ (w1 ++ ('}' :: rest)))))
          = ':' :: (sepSpace pretty
              ++ (renderJson pretty d v ++ (w1 ++ ('}' :: rest)))) :=
        skipWs_head _ _ (by decide)
      have hsk3 : skipWs (w1 ++ ('}' :: rest)) = '}' :: rest := by
        rw [skipWs_append_ws w1 hw1]
        exact skipWs_head _ _ (by decide)
      have hskip : skipWs (w0 ++ ('"' :: (escapeStr k.data ++ ('"' :: (':' :: (sepSpace pretty
            ++ (renderJson pretty d v ++ (w1 ++ ('}' :: rest)))))))))
          = '"' :: (escapeStr k.data ++ ('"' :: (':' :: (sepSpace pretty
              ++ (renderJson pretty d v ++ (w1 ++ ('}' :: rest))))))) := by
        rw [skipWs_append_ws w0 hw0]
        exact skipWs_head _ _ (by decide)
      simp only [parseFields]
      rw [hshape, hskip]
      simp only [hkey, hsk2, hval, hsk3]
  | d, .cons k v (.cons k2 v2 fs), w0, w1, rest, f, hw0, hw1, _, hf => by
    cases f with
    | zero =>
      exact absurd hf
        (by
          have := fieldsFuel_pos (JsonFields.cons k v (JsonFields.cons k2 v2 fs))
          omega)
    | succ f =>
      have hfv : jsonFuel v ≤ f := by
        simp only [fieldsFuel] at hf
        omega
      have hfl : fieldsFuel (JsonFields.cons k2 v2 fs) ≤ f := by
        simp only [fieldsFuel] at hf ⊢
        omega
      have hshape : renderFields pretty d (JsonFields.cons k v (JsonFields.cons k2 v2 fs))
            ++ (w1 ++ ('}' :: rest))
          = '"' :: (escapeStr k.data ++ ('"' :: (':' :: (sepSpace pretty
              ++ (renderJson pretty d v ++ (',' :: (nlIndent pretty d
                ++ (renderFields pretty d (JsonFields.cons k2 v2 fs)
                  ++ (w1 ++ ('}' :: rest)))))))))) := by
        show (renderStr k ++ ':' :: (sepSpace pretty ++ renderJson pretty d v)
            ++ ',' :: (nlIndent pretty d
              ++ renderFields pretty d (JsonFields.cons k2 v2 fs)))
            ++ (w1 ++ ('}' :: rest)) = _
        simp [renderStr, List.append_assoc]
      have hkey : parseStrAux (escapeStr k.data ++ ('"' :: (':' :: (sepSpace pretty
            ++ (renderJson pretty d v ++ (',' :: (nlIndent pretty d
              ++ (renderFields pretty d (JsonFields.cons k2 v2 fs)
                ++ (w1 ++ ('}' :: rest)))))))))).length
          (escapeStr k.data ++ ('"' :: (':' :: (sepSpace pretty
            ++ (renderJson pretty d v ++ (',' :: (nlIndent pretty d
              ++ (renderFields pretty d (JsonFields.cons k2 v2 fs)
                ++ (w1 ++ ('}' :: rest))))))))))
          = some (k.data, ':' :: (sepSpace pretty
              ++ (renderJson pretty d v ++ (',' :: (nlIndent pretty d
                ++ (renderFields pretty d (JsonFields.cons k2 v2 fs)
                  ++ (w1 ++ ('}' :: rest)))))))) := by
        apply parseStrAux_rt
        rw [List.length_append]
        have := escapeStr_len_ge k.data
        omega
      have hval : parseVal f (sepSpace pretty
            ++ (renderJson pretty d v ++ (',' :: (nlIndent pretty d
              ++ (renderFields pretty d (JsonFields.cons k2 v2 fs)
                ++ (w1 ++ ('}' :: rest)))))))
          = some (v, ',' :: (nlIndent pretty d
              ++ (renderFields pretty d (JsonFields.cons k2 v2 fs)
                ++ (w1 ++ ('}' :: rest))))) :=
        parseVal_rt pretty d v (sepSpace pretty) _ f (sepSpace_ws pretty) hfv
          (noDigitHead_cons ',' (by decide) _)
      have hsk2 : skipWs (':' :: (sepSpace pretty
            ++ (renderJson pretty d v ++ (',' :: (nlIndent pretty d
              ++ (renderFields pretty d (JsonFields.cons k2 v2 fs)
                ++ (w1 ++ ('}' :: rest))))))))
          = ':' :: (sepSpace pretty
              ++ (renderJson pretty d v ++ (',' :: (nlIndent pretty d
                ++ (renderFields pretty d (JsonFields.cons k2 v2 fs)
                  ++ (w1 ++ ('}' :: rest))))))) :=
        skipWs_head _ _ (by decide)
      have hsk3 : skipWs (',' :: (nlIndent pretty d
            ++ (renderFields pretty d (JsonFields.cons k2 v2 fs)
              ++ (w1 ++ ('}' :: rest)))))
          = ',' :: (nlIndent pretty d
              ++ (renderFields pretty d (JsonFields.cons k2 v2 fs)
                ++ (w1 ++ ('}' :: rest)))) :=
        skipWs_head _ _ (by decide)
      have htail : parseFields f (nlIndent pretty d
            ++ (renderFields pretty d (JsonFields.cons k2 v2 fs)
              ++ (w1 ++ ('}' :: rest))))
          = some (JsonFields.cons k2 v2 fs, rest) :=
        parseFields_rt pretty d (JsonFields.cons k2 v2 fs) (nlIndent pretty d) w1
          rest f (nlIndent_ws pretty d) hw1 (by simp) hfl
      have hskip : skipWs (w0 ++ ('"' :: (escapeStr k.data ++ ('"' :: (':' :: (sepSpace pretty
            ++ (renderJson pretty d v ++ (',' :: (nlIndent pretty d
              ++ (renderFields pretty d (JsonFields.cons k2 v2 fs)
                ++ (w1 ++ ('}' :: rest))))))))))))
          = '"' :: (escapeStr k.data ++ ('"' :: (':' :: (sepSpace pretty
              ++ (renderJson pretty d v ++ (',' :: (nlIndent pretty d
                ++ (renderFields pretty d (JsonFields.cons k2 v2 fs)
                  ++ (w1 ++ ('}' :: rest)))))))))) := by
        rw [skipWs_append_ws w0 hw0]
        exact skipWs_head _ _ (by decide)
      simp only [parseFields]
      rw [hshape, hskip]
      simp only [hkey, hsk2, hval, hsk3, htail]

end


mutual

/-- The parser fuel bound for a value is dominated by its rendered
length. -/
theorem jsonFuel_le_render (pretty : Bool) : ∀ (d : Nat) (v : Json),
    jsonFuel v ≤ (renderJson pretty d v).length + 1
  | _, .null => by simp [jsonFuel, renderJson]
  | _, .bool true => by simp [jsonFuel, renderJson]
  | _, .bool false => by simp [jsonFuel, renderJson]
  | _, .num n => by simp [jsonFuel]
  | _, .str s => by simp [jsonFuel]
  | d, .arr .nil => by simp [jsonFuel, elemsFuel, renderJson]
  | d, .arr (.cons v vs) => by
    have h := elemsFuel_le_render pretty (d+1) (.cons v vs)
    simp only [jsonFuel, renderJson, List.length_cons, List.length_append]
    omega
  | d, .obj .nil => by simp [jsonFuel, fieldsFuel, renderJson]
  | d, .obj (.cons k v fs) => by
    have h := fieldsFuel_le_render pretty (d+1) (.cons k v fs)
    simp only [jsonFuel, renderJson, List.length_cons, List.length_append]
    omega

/-- The parser fuel bound for array items is dominated by their rendered
length plus two. -/
theorem elemsFuel_le_render (pretty : Bool) : ∀ (d : Nat) (l : JsonList),
    elemsFuel l ≤ (renderItems pretty d l).length + 2
  | _, .nil => by simp [elemsFuel, renderItems]
  | d, .cons v .nil => by
    have h := jsonFuel_le_render pretty d v
    simp only [elemsFuel, renderItems, elemsFuel]
    omega
  | d, .cons v (.cons w ws) => by
    have h1 := jsonFuel_le_render pretty d v
    have h2 := elemsFuel_le_render pretty d (.cons w ws)
    simp only [elemsFuel, renderItems, List.length_append, List.length_cons] at h2 ⊢
    omega

/-- The parser fuel bound for object fields is dominated by their
rendered length plus two. -/
theorem fieldsFuel_le_render (pretty : Bool) : ∀ (d : Nat) (l : JsonFields),
    fieldsFuel l ≤ (renderFields pretty d l).length + 2
  | _, .nil => by simp [fieldsFuel, renderFields]
  | d, .cons k v .nil => by
    have h := jsonFuel_le_render pretty d v
    simp only [fieldsFuel, renderFields, List.length_append, List.length_cons]
    omega
  | d, .cons k v (.cons k2 v2 fs) => by
    have h1 := jsonFuel_le_render pretty d v
    have h2 := fieldsFuel_le_render pretty d (.cons k2 v2 fs)
    simp only [fieldsFuel, renderFields, List.length_append, List.length_cons] at h2 ⊢
    omega

end

theorem mapInsert_append {β : Type} (m : List (String × β)) (k : String)
    (v : β) (hm : ∀ e ∈ m, e.1 < k) : mapInsert m k v = m ++ [(k, v)] := by
  induction m with
  | nil => rfl
  | cons e rest ih =>
    obtain ⟨k0, v0⟩ := e
    have hk0 : k0 < k := hm (k0, v0) (by simp)
    show (if k < k0 then _ else if k = k0 then _ else (k0, v0) :: mapInsert rest k v) = _
    rw [if_neg (by exact fun h => absurd (lt_trans hk0 h) (lt_irrefl k0)),
        if_neg (by rintro rfl; exact absurd hk0 (lt_irrefl k))]
    rw [ih (fun e he => hm e (by simp [he]))]
    simp

theorem setInsert_append (l : List String) (k : String)
    (hl : ∀ x ∈ l, x < k) : setInsert l k = l ++ [k] := by
  induction l with
  | nil => rfl
  | cons x rest ih =>
    have hx : x < k := hl x (by simp)
    show (if k < x then _ else if k = x then _ else x :: setInsert rest k) = _
    rw [if_neg (by exact fun h => absurd (lt_trans hx h) (lt_irrefl x)),
        if_neg (by rintro rfl; exact absurd hx (lt_irrefl k))]
    rw [ih (fun e he => hl e (by simp [he]))]
    simp

theorem mapFromList_acc {β : Type} (l : List (String × β)) :
    ∀ (acc : List (String × β)),
    List.Pairwise (fun a b : String × β => a.1 < b.1) (acc ++ l) →
    l.foldl (fun m kv => mapInsert m kv.1 kv.2) acc = acc ++ l := by
  induction l with
  | nil => intro acc _; simp
  | cons e rest ih =>
    intro acc hp
    obtain ⟨k, v⟩ := e
    have hlt : ∀ x ∈ acc, x.1 < k := by
      intro x hx
      have := (List.pairwise_append.mp hp).2.2 x hx (k, v) (by simp)
      exact this
    show List.foldl _ (mapInsert acc k v) rest = _
    rw [mapInsert_append acc k v hlt]
    have hp2 : List.Pairwise (fun a b : String × β => a.1 < b.1)
        ((acc ++ [(k, v)]) ++ rest) := by
      have : (acc ++ [(k, v)]) ++ rest = acc ++ ((k, v) :: rest) := by simp
      rw [this]
      exact hp
    rw [ih (acc ++ [(k, v)]) hp2]
    simp

/-- On an already-ordered association list, serde's rebuild-by-insertion
is the identity. -/
theorem mapFromList_sorted {β : Type} (m : List (String × β))
    (hm : MapWf m) : mapFromList m = m := by
  have h := mapFromList_acc m [] (by rw [List.nil_append]; exact hm)
  unfold mapFromList
  rw [h, List.nil_append]

theorem setFromList_acc (l : List String) :
    ∀ (acc : List String),
    List.Pairwise (fun a b : String => a < b) (acc ++ l) →
    l.foldl setInsert acc = acc ++ l := by
  induction l with
  | nil => intro acc _; simp
  | cons x rest ih =>
    intro acc hp
    have hlt : ∀ y ∈ acc, y < x := by
      intro y hy
      exact (List.pairwise_append.mp hp).2.2 y hy x (by simp)
    show List.foldl _ (setInsert acc x) rest = _
    rw [setInsert_append acc x hlt]
    have hp2 : List.Pairwise (fun a b : String => a < b)
        ((acc ++ [x]) ++ rest) := by
      have : (acc ++ [x]) ++ rest = acc ++ (x :: rest) := by simp
      rw [this]
      exact hp
    rw [ih (acc ++ [x]) hp2]
    simp

/-- On an already-ordered element list, serde's rebuild-by-insertion is
the identity. -/
theorem setFromList_sorted (l : List String) (hl : SetWf l) :
    setFromList l = l := by
  have h := setFromList_acc l [] (by rw [List.nil_append]; exact hl)
  unfold setFromList
  rw [h, List.nil_append]


theorem char_toNat_lt (c : Char) : c.toNat < 1114112 := by
  rcases c.valid with h | h
  · have : c.val.toNat < 55296 := h
    simp [Char.toNat]
    omega
  · obtain ⟨-, h2⟩ := h
    have : c.val.toNat < 1114112 := h2
    simp [Char.toNat]
    omega

theorem utf8Char_ne_nil (c : Char) : utf8Char c ≠ [] := by
  simp only [utf8Char]
  split_ifs <;> simp

theorem utf8Chars_len_ge (cs : List Char) :
    cs.length ≤ (utf8Chars cs).length := by
  induction cs with
  | nil => simp [utf8Chars]
  | cons c t ih =>
    have h1 : utf8Chars (c :: t) = utf8Char c ++ utf8Chars t := by
      simp [utf8Chars]
    rw [h1, List.length_append, List.length_cons]
    have := List.length_pos.mpr (utf8Char_ne_nil c)
    omega

/-- Decoding the UTF-8 encoding of one character recovers it. -/
theorem utf8DecodeChar_enc (c : Char) (rest : List Nat) :
    utf8DecodeChar (utf8Char c ++ rest) = some (c, rest) := by
  have hlt := char_toNat_lt c
  unfold utf8Char
  by_cases h1 : c.toNat < 128
  · rw [if_pos h1]
    show utf8DecodeChar (c.toNat :: rest) = _
    simp only [utf8DecodeChar]
    rw [if_pos h1, Char.ofNat_toNat]
  · rw [if_neg h1]
    by_cases h2 : c.toNat < 2048
    · rw [if_pos h2]
      show utf8DecodeChar ((192 + c.toNat / 64) :: (128 + c.toNat % 64) :: rest) = _
      simp only [utf8DecodeChar]
      rw [if_neg (by omega)]
      rw [if_neg (by omega)]
      rw [if_pos (by omega)]
      rw [if_pos (by omega)]
      have harg : (192 + c.toNat / 64 - 192) * 64 + (128 + c.toNat % 64 - 128)
          = c.toNat := by omega
      rw [harg, Char.ofNat_toNat]
    · rw [if_neg h2]
      by_cases h3 : c.toNat < 65536
      · rw [if_pos h3]
        show utf8DecodeChar ((224 + c.toNat / 4096)
          :: (128 + c.toNat / 64 % 64) :: (128 + c.toNat % 64) :: rest) = _
        simp only [utf8DecodeChar]
        rw [if_neg (by omega)]
        rw [if_neg (by omega)]
        rw [if_neg (by omega)]
        rw [if_pos (by omega)]
        rw [if_pos (by omega)]
        have harg : (224 + c.toNat / 4096 - 224) * 4096
            + (128 + c.toNat / 64 % 64 - 128) * 64
            + (128 + c.toNat % 64 - 128) = c.toNat := by omega
        rw [harg, Char.ofNat_toNat]
      · rw [if_neg h3]
        show utf8DecodeChar ((240 + c.toNat / 262144)
          :: (128 + c.toNat / 4096 % 64) :: (128 + c.toNat / 64 % 64)
          :: (128 + c.toNat % 64) :: rest) = _
        simp only [utf8DecodeChar]
        rw [if_neg (by omega)]
        rw [if_neg (by omega)]
        rw [if_neg (by omega)]
        rw [if_neg (by omega)]
        rw [if_pos (by omega)]
        rw [if_pos (by omega)]
        have harg : (240 + c.toNat / 262144 - 240) * 262144
            + (128 + c.toNat / 4096 % 64 - 128) * 4096
            + (128 + c.toNat / 64 % 64 - 128) * 64
            + (128 + c.toNat % 64 - 128) = c.toNat := by omega
        rw [harg, Char.ofNat_toNat]

/-- Decoding the UTF-8 encoding of a character sequence recovers it,
with any fuel at least the character count. -/
theorem utf8Loop_rt (cs : List Char) : ∀ (f : Nat), cs.length ≤ f →
    utf8DecodeLoop f (utf8Chars cs) = some cs := by
  induction cs with
  | nil =>
    intro f _
    cases f <;> rfl
  | cons c t ih =>
    intro f hf
    cases f with
    | zero => simp at hf
    | succ f =>
      cases hu : utf8Char c with
      | nil => exact absurd hu (utf8Char_ne_nil c)
      | cons b bt =>
        have hsh : utf8Chars (c :: t) = b :: (bt ++ utf8Chars t) := by
          show utf8Char c ++ utf8Chars t = _
          rw [hu, List.cons_append]
        have hdec : utf8DecodeChar (b :: (bt ++ utf8Chars t))
            = some (c, utf8Chars t) := by
          rw [← List.cons_append, ← hu]
          exact utf8DecodeChar_enc c _
        rw [hsh]
        simp only [utf8DecodeLoop, hdec, ih f (by simpa using hf)]

theorem decodeTagValue_enc (tv : TagValue) :
    decodeTagValue (encodeTagValue tv) = some tv := by
  cases tv <;> rfl

theorem decodeOptTagValue_enc (o : Option TagValue) :
    decodeOpt decodeTagValue (encodeOpt encodeTagValue o) = some o := by
  cases o with
  | none => rfl
  | some tv => cases tv <;> rfl

theorem decodeDT_enc (t : DateTime) :
    decodeDT (.str (dtToString t)) = some t := by
  simp only [decodeDT, decodeStr]
  exact dtParse_rt t

theorem decodeOptDT_enc (o : Option DateTime) :
    decodeOpt decodeDT (encodeOpt (fun u => .str (dtToString u)) o)
      = some o := by
  cases o with
  | none => rfl
  | some t =>
    show (decodeDT (.str (dtToString t))).map some = some (some t)
    rw [decodeDT_enc t]
    rfl

theorem decodeOptStr_enc (o : Option String) :
    decodeOpt decodeStr (encodeOpt .str o) = some o := by
  cases o <;> rfl

theorem decodeTagFields_enc (t : TagsMap) :
    decodeTagFields (jsonFieldsOf
      (t.map (fun kv => (kv.1, encodeOpt encodeTagValue kv.2)))) = some t := by
  induction t with
  | nil => rfl
  | cons kv rest ih =>
    obtain ⟨k, tv⟩ := kv
    simp only [List.map_cons, jsonFieldsOf, decodeTagFields,
      decodeOptTagValue_enc, ih]

theorem decodeTags_enc (t : TagsMap) (h : MapWf t) :
    decodeTags (encodeTags t) = some t := by
  show (decodeTagFields _).map mapFromList = _
  rw [decodeTagFields_enc t]
  show some (mapFromList t) = some t
  rw [mapFromList_sorted t h]

theorem decodeFileData_enc (fd : FileData) (h : MapWf fd.tags) :
    decodeFileData (encodeFileData fd) = some fd := by
  show decodeFileData (Json.obj (JsonFields.cons "tags" (encodeTags fd.tags)
    (JsonFields.cons "comment" (encodeOpt Json.str fd.comment)
      (JsonFields.cons "created" (Json.str (dtToString fd.created))
        (JsonFields.cons "updated"
          (encodeOpt (fun u => Json.str (dtToString u)) fd.updated)
          JsonFields.nil))))) = some fd
  simp only [decodeFileData, decodeTags_enc fd.tags h, decodeOptStr_enc,
    decodeDT_enc, decodeOptDT_enc]

theorem decodeStrElems_enc (l : List String) :
    decodeStrElems (jsonListOf (l.map .str)) = some l := by
  induction l with
  | nil => rfl
  | cons x rest ih =>
    simp only [List.map_cons, jsonListOf, decodeStrElems, decodeStr, ih]

theorem decodeColl_enc (c : List String) (h : SetWf c) :
    decodeColl (encodeColl c) = some c := by
  show (decodeStrElems _).map setFromList = _
  rw [decodeStrElems_enc c]
  show some (setFromList c) = some c
  rw [setFromList_sorted c h]

theorem decodeFileFields_enc (m : List (String × FileData))
    (h : ∀ kv ∈ m, MapWf kv.2.tags) :
    decodeFileFields (jsonFieldsOf
      (m.map (fun kv => (kv.1, encodeFileData kv.2)))) = some m := by
  induction m with
  | nil => rfl
  | cons kv rest ih =>
    obtain ⟨k, fd⟩ := kv
    simp only [List.map_cons, jsonFieldsOf, decodeFileFields,
      decodeFileData_enc fd (h (k, fd) (by simp)),
      ih (fun e he => h e (by simp [he]))]

theorem decodeCollFields_enc (m : List (String × List String))
    (h : ∀ kv ∈ m, SetWf kv.2) :
    decodeCollFields (jsonFieldsOf
      (m.map (fun kv => (kv.1, encodeColl kv.2)))) = some m := by
  induction m with
  | nil => rfl
  | cons kv rest ih =>
    obtain ⟨k, c⟩ := kv
    simp only [List.map_cons, jsonFieldsOf, decodeCollFields,
      decodeColl_enc c (h (k, c) (by simp)),
      ih (fun e he => h e (by simp [he]))]

/-- Decoding the serde document produced for a well-formed store body
recovers the body exactly. -/
theorem decodeDb_enc (db : Db) (h : dbWf db) :
    decodeDb (encodeDb db) = some db := by
  obtain ⟨hfw, -, hfe, hcw, -, hce, htags, -, -, -⟩ := h
  have hf : ∀ kv ∈ db.files, MapWf kv.2.tags :=
    fun kv hkv => ((hfe kv hkv).2.1).1
  have hc : ∀ kv ∈ db.collections, SetWf kv.2 :=
    fun kv hkv => ((hce kv hkv).2).1
  show decodeDb (Json.obj (JsonFields.cons "files"
      (Json.obj (jsonFieldsOf
        (db.files.map (fun kv => (kv.1, encodeFileData kv.2)))))
    (JsonFields.cons "collections"
      (Json.obj (jsonFieldsOf
        (db.collections.map (fun kv => (kv.1, encodeColl kv.2)))))
      (JsonFields.cons "tags" (encodeTags db.tags)
        (JsonFields.cons "comment" (encodeOpt Json.str db.comment)
          (JsonFields.cons "created" (Json.str (dtToString db.created))
            (JsonFields.cons "updated"
              (encodeOpt (fun u => Json.str (dtToString u)) db.updated)
              JsonFields.nil)))))))
    = some db
  simp only [decodeDb, decodeFileFields_enc db.files hf,
    decodeCollFields_enc db.collections hc, decodeTags_enc db.tags htags.1,
    decodeOptStr_enc, decodeDT_enc, decodeOptDT_enc,
    mapFromList_sorted db.files hfw, mapFromList_sorted db.collections hcw]


theorem readU64_rt (n : Nat) (hn : n < 2 ^ 64) (r : List Nat) :
    readU64 (u64Bytes n ++ r) = some (n, r) := by
  show readU64 (n % 256 :: (n / 256 % 256) :: (n / 256 ^ 2 % 256)
    :: (n / 256 ^ 3 % 256) :: (n / 256 ^ 4 % 256) :: (n / 256 ^ 5 % 256)
    :: (n / 256 ^ 6 % 256) :: (n / 256 ^ 7 % 256) :: r) = _
  simp only [readU64]
  have harg : n % 256 + 256 * (n / 256 % 256) + 256 ^ 2 * (n / 256 ^ 2 % 256)
      + 256 ^ 3 * (n / 256 ^ 3 % 256) + 256 ^ 4 * (n / 256 ^ 4 % 256)
      + 256 ^ 5 * (n / 256 ^ 5 % 256) + 256 ^ 6 * (n / 256 ^ 6 % 256)
      + 256 ^ 7 * (n / 256 ^ 7 % 256) = n := by omega
  rw [harg]

theorem readU32_rt (n : Nat) (hn : n < 2 ^ 32) (r : List Nat) :
    readU32 (u32Bytes n ++ r) = some (n, r) := by
  show readU32 (n % 256 :: (n / 256 % 256) :: (n / 256 ^ 2 % 256)
    :: (n / 256 ^ 3 % 256) :: r) = _
  simp only [readU32]
  have harg : n % 256 + 256 * (n / 256 % 256) + 256 ^ 2 * (n / 256 ^ 2 % 256)
      + 256 ^ 3 * (n / 256 ^ 3 % 256) = n := by omega
  rw [harg]

theorem readI64_rt (i : Int) (h1 : -(2 ^ 63) ≤ i) (h2 : i < 2 ^ 63)
    (r : List Nat) : readI64 (i64Bytes i ++ r) = some (i, r) := by
  unfold readI64 i64Bytes
  have hm : ((i % (2 ^ 64 : Int)).toNat) < 2 ^ 64 := by omega
  rw [readU64_rt _ hm r]
  show some ((if (i % (2 ^ 64 : Int)).toNat < 2 ^ 63
    then (((i % (2 ^ 64 : Int)).toNat : Nat) : Int)
    else (((i % (2 ^ 64 : Int)).toNat : Nat) : Int) - 2 ^ 64), r) = some (i, r)
  by_cases hc : (i % (2 ^ 64 : Int)).toNat < 2 ^ 63
  · rw [if_pos hc]
    have : ((((i % (2 ^ 64 : Int)).toNat : Nat) : Int)) = i := by omega
    rw [this]
  · rw [if_neg hc]
    have : ((((i % (2 ^ 64 : Int)).toNat : Nat) : Int)) - 2 ^ 64 = i := by omega
    rw [this]

theorem readStrBin_rt (s : String) (hs : strOk s) (r : List Nat) :
    readStrBin (strBytes s ++ r) = some (s, r) := by
  unfold readStrBin strBytes
  rw [List.append_assoc, readU64_rt _ hs (utf8Str s ++ r)]
  simp only []
  rw [if_neg (by rw [List.length_append]; omega)]
  rw [List.take_left, List.drop_left]
  rw [show utf8Str s = utf8Chars s.data from rfl,
      utf8Loop_rt s.data _ (utf8Chars_len_ge s.data)]

theorem readBool_rt (b : Bool) (r : List Nat) :
    readBool (boolByte b ++ r) = some (b, r) := by
  cases b <;> rfl

theorem readOpt_rt {α : Type} (rf : List Nat → Option (α × List Nat))
    (ef : α → List Nat) (o : Option α) (r : List Nat)
    (h : ∀ x, o = some x → rf (ef x ++ r) = some (x, r)) :
    readOpt rf (optBytes ef o ++ r) = some (o, r) := by
  cases o with
  | none => rfl
  | some x =>
    show (rf (ef x ++ r)).map (fun p => (some p.1, p.2)) = some (some x, r)
    rw [h x rfl]
    rfl

theorem readDT_rt (t : DateTime) (ht : dtOk t) (r : List Nat) :
    readDT (dtBytes t ++ r) = some (t, r) := by
  unfold readDT dtBytes
  rw [readStrBin_rt _ ht r]
  simp only [dtParse_rt]

theorem readTagValue_rt (tv : TagValue) (h : tagValueWf tv) (r : List Nat) :
    readTagValue (tagValueBytes tv ++ r) = some (tv, r) := by
  cases tv with
  | number n =>
    obtain ⟨h1, h2⟩ := h
    show readTagValue ((u32Bytes 0 ++ i64Bytes n) ++ r) = _
    rw [List.append_assoc]
    unfold readTagValue
    rw [readU32_rt 0 (by omega) _]
    simp only [readI64_rt n h1 h2 r]
    rfl
  | bool b =>
    show readTagValue ((u32Bytes 1 ++ boolByte b) ++ r) = _
    rw [List.append_assoc]
    unfold readTagValue
    rw [readU32_rt 1 (by omega) _]
    simp only [readBool_rt b r]
    rfl
  | url u =>
    show readTagValue ((u32Bytes 2 ++ strBytes u) ++ r) = _
    rw [List.append_assoc]
    unfold readTagValue
    rw [readU32_rt 2 (by omega) _]
    simp only [readStrBin_rt u h r]
    rfl
  | simple s =>
    show readTagValue ((u32Bytes 3 ++ strBytes s) ++ r) = _
    rw [List.append_assoc]
    unfold readTagValue
    rw [readU32_rt 3 (by omega) _]
    simp only [readStrBin_rt s h r]
    rfl

theorem readPairs_rt {β : Type} (readV : List Nat → Option (β × List Nat))
    (f : β → List Nat) : ∀ (m : List (String × β)) (r : List Nat),
    (∀ kv ∈ m, ∀ r2, readV (f kv.2 ++ r2) = some (kv.2, r2)) →
    (∀ kv ∈ m, strOk kv.1) →
    readPairs readV m.length
      (m.flatMap (fun kv => strBytes kv.1 ++ f kv.2) ++ r) = some (m, r)
  | [], r, _, _ => rfl
  | (k, v) :: rest, r, hv, hk => by
    have hsh : (((k, v) :: rest).flatMap (fun kv => strBytes kv.1 ++ f kv.2)) ++ r
        = strBytes k ++ (f v
            ++ (rest.flatMap (fun kv => strBytes kv.1 ++ f kv.2) ++ r)) := by
      simp [List.append_assoc]
    have htail := readPairs_rt readV f rest r
      (fun e he r2 => hv e (by simp [he]) r2)
      (fun e he => hk e (by simp [he]))
    simp only [List.length_cons]
    rw [hsh]
    simp only [readPairs,
      readStrBin_rt k (hk (k, v) (by simp))
        (f v ++ (rest.flatMap (fun kv => strBytes kv.1 ++ f kv.2) ++ r)),
      hv (k, v) (by simp)
        (rest.flatMap (fun kv => strBytes kv.1 ++ f kv.2) ++ r),
      htail]

theorem readMap_rt {β : Type} (readV : List Nat → Option (β × List Nat))
    (f : β → List Nat) (m : List (String × β)) (hm : MapWf m)
    (hlen : m.length < 2 ^ 64)
    (hv : ∀ kv ∈ m, ∀ r2, readV (f kv.2 ++ r2) = some (kv.2, r2))
    (hk : ∀ kv ∈ m, strOk kv.1) (r : List Nat) :
    readMap readV (mapBytes f m ++ r) = some (m, r) := by
  unfold readMap mapBytes
  rw [List.append_assoc, readU64_rt _ hlen _]
  simp only []
  rw [readPairs_rt readV f m r hv hk]
  show some (mapFromList m, r) = some (m, r)
  rw [mapFromList_sorted m hm]

theorem readStrList_rt : ∀ (l : List String) (r : List Nat),
    (∀ x ∈ l, strOk x) →
    readStrList l.length (l.flatMap strBytes ++ r) = some (l, r)
  | [], r, _ => rfl
  | x :: rest, r, hx => by
    have hsh : ((x :: rest).flatMap strBytes) ++ r
        = strBytes x ++ (rest.flatMap strBytes ++ r) := by
      simp [List.append_assoc]
    have htail := readStrList_rt rest r (fun e he => hx e (by simp [he]))
    simp only [List.length_cons]
    rw [hsh]
    simp only [readStrList,
      readStrBin_rt x (hx x (by simp)) (rest.flatMap strBytes ++ r), htail]

theorem readStrSet_rt (l : List String) (h : collWf l) (r : List Nat) :
    readStrSet (strSetBytes l ++ r) = some (l, r) := by
  obtain ⟨hs, hlen, hok⟩ := h
  unfold readStrSet strSetBytes
  rw [List.append_assoc, readU64_rt _ hlen _]
  simp only []
  rw [readStrList_rt l r hok]
  show some (setFromList l, r) = some (l, r)
  rw [setFromList_sorted l hs]

theorem readTags_rt (t : TagsMap) (h : tagsWf t) (r : List Nat) :
    readTags (tagsBytes t ++ r) = some (t, r) := by
  obtain ⟨hw, hlen, hent⟩ := h
  unfold readTags tagsBytes
  exact readMap_rt (readOpt readTagValue) (optBytes tagValueBytes) t hw hlen
    (fun kv hkv r2 => readOpt_rt readTagValue tagValueBytes kv.2 r2
      (fun x hx => readTagValue_rt x ((hent kv hkv).2 x hx) r2))
    (fun kv hkv => (hent kv hkv).1) r

theorem readFileData_rt (fd : FileData) (h : fileDataWf fd) (r : List Nat) :
    readFileData (fileDataBytes fd ++ r) = some (fd, r) := by
  obtain ⟨ht, hc, hcr, hu⟩ := h
  have hsh : fileDataBytes fd ++ r = tagsBytes fd.tags
      ++ (optBytes strBytes fd.comment ++ (dtBytes fd.created
        ++ (optBytes dtBytes fd.updated ++ r))) := by
    simp [fileDataBytes, List.append_assoc]
  rw [hsh]
  unfold readFileData
  rw [readTags_rt fd.tags ht _]
  simp only []
  rw [readOpt_rt readStrBin strBytes fd.comment _
    (fun x hx => readStrBin_rt x (by rw [hx] at hc; exact hc) _)]
  simp only []
  rw [readDT_rt fd.created hcr _]
  simp only []
  rw [readOpt_rt readDT dtBytes fd.updated r
    (fun x hx => readDT_rt x (by rw [hx] at hu; exact hu) r)]

/-- bincode decoding of the bincode encoding of a well-formed store body
recovers the body and leaves the trailer. -/
theorem readDb_rt (db : Db) (h : dbWf db) (r : List Nat) :
    readDb (dbBytes db ++ r) = some (db, r) := by
  obtain ⟨hfw, hflen, hfe, hcw, hclen, hce, htags, hcomm, hcr, hu⟩ := h
  have hsh : dbBytes db ++ r = mapBytes fileDataBytes db.files
      ++ (mapBytes strSetBytes db.collections ++ (tagsBytes db.tags
        ++ (optBytes strBytes db.comment ++ (dtBytes db.created
          ++ (optBytes dtBytes db.updated ++ r))))) := by
    simp [dbBytes, List.append_assoc]
  rw [hsh]
  unfold readDb
  rw [readMap_rt readFileData fileDataBytes db.files hfw hflen
    (fun kv hkv r2 => readFileData_rt kv.2 (hfe kv hkv).2 r2)
    (fun kv hkv => (hfe kv hkv).1) _]
  simp only []
  rw [readMap_rt readStrSet strSetBytes db.collections hcw hclen
    (fun kv hkv r2 => readStrSet_rt kv.2 (hce kv hkv).2 r2)
    (fun kv hkv => (hce kv hkv).1) _]
  simp only []
  rw [readTags_rt db.tags htags _]
  simp only []
  rw [readOpt_rt readStrBin strBytes db.comment _
    (fun x hx => readStrBin_rt x (by rw [hx] at hcomm; exact hcomm) _)]
  simp only []
  rw [readDT_rt db.created hcr _]
  simp only []
  rw [readOpt_rt readDT dtBytes db.updated r
    (fun x hx => readDT_rt x (by rw [hx] at hu; exact hu) r)]


theorem parseVal_render (pretty : Bool) (v : Json) (f : Nat)
    (hf : jsonFuel v ≤ f) :
    parseVal f (renderJson pretty 0 v) = some (v, []) := by
  have h := parseVal_rt pretty 0 v [] [] f wsOnly_nil hf
    (by intro c hc; simp at hc)
  simpa using h

/-- C4: codec round-trip. For a well-formed in-memory store and each of
the three on-disk formats (pretty JSON, compact JSON, binary), reading
back the bytes written for the store returns exactly the original store
(files, collections, tags, comment, created, updated all preserved). -/
theorem write_read_roundtrip (db : Db) (hdb : dbWf db) (fmt : Format) :
    read_file fmt (write_file fmt db) = some db := by
  cases fmt with
  | jsonPretty =>
    have hloop := utf8Loop_rt (renderJson true 0 (encodeDb db))
      (utf8Chars (renderJson true 0 (encodeDb db))).length
      (utf8Chars_len_ge (renderJson true 0 (encodeDb db)))
    have hparse := parseVal_render true (encodeDb db)
      ((renderJson true 0 (encodeDb db)).length + 1)
      (jsonFuel_le_render true 0 (encodeDb db))
    simp only [read_file, write_file, hloop, hparse]
    rw [if_pos (by rfl)]
    exact decodeDb_enc db hdb
  | json =>
    have hloop := utf8Loop_rt (renderJson false 0 (encodeDb db))
      (utf8Chars (renderJson false 0 (encodeDb db))).length
      (utf8Chars_len_ge (renderJson false 0 (encodeDb db)))
    have hparse := parseVal_render false (encodeDb db)
      ((renderJson false 0 (encodeDb db)).length + 1)
      (jsonFuel_le_render false 0 (encodeDb db))
    simp only [read_file, write_file, hloop, hparse]
    rw [if_pos (by rfl)]
    exact decodeDb_enc db hdb
  | binary =>
    have h := readDb_rt db hdb []
    rw [List.append_nil] at h
    simp only [read_file, write_file, h]
    rfl

theorem dbC4_wf : dbWf dbC4 := by decide

theorem write_read_roundtrip_witness : dbWf dbC4
    ∧ read_file .jsonPretty (write_file .jsonPretty dbC4) = some dbC4
    ∧ read_file .json (write_file .json dbC4) = some dbC4
    ∧ read_file .binary (write_file .binary dbC4) = some dbC4 :=
  ⟨dbC4_wf, write_read_roundtrip dbC4 dbC4_wf .jsonPretty,
   write_read_roundtrip dbC4 dbC4_wf .json,
   write_read_roundtrip dbC4 dbC4_wf .binary⟩

end FileMeta
